import Mathlib

/-!
Verification of the 4-bit quantization codec and the token-sampling engine of
the TUI-LLM-Studio repository (`src/app/core/quantized_model.py` and
`src/app/core/llm_engine_torch.py`), as a shallow embedding in Lean.

Machine floats are idealized as exact rationals (`ℚ`); Python integers are
`Int`/`Nat`.  Tensors are lists in row-major (flattened) order.  The float
exponential used by `torch.softmax` is abstracted as a parameter
`exp : ℚ → ℚ`, constrained to be positive where a proof needs it.
-/

namespace TLS

/-! ### Nibble packing (`pack_i4` / `unpack_i4`, quantized_model.py lines 156-174) -/

mutual

/-- Even-position elements of a list (Python slicing `t[0::2]`). -/
def evens : List ℕ → List ℕ
  | [] => []
  | a :: t => a :: odds t

/-- Odd-position elements of a list (Python slicing `t[1::2]`). -/
def odds : List ℕ → List ℕ
  | [] => []
  | _ :: t => evens t

end

/-- `pack_i4` (quantized_model.py lines 156-165): masks every int8 value to its
low 4 bits (`tensor & 0xF`, i.e. the value mod 16, a number in `[0, 15]`),
appends one zero element when the length is odd, and packs consecutive pairs
into bytes: even-index value in the low nibble, odd-index value in the high
nibble.  The int8 overflow of `high << 4` followed by the cast `.to(torch.uint8)`
amounts to the byte `low + 16 * high` (always `< 256`), which is what we
compute. -/
def pack_i4 (tensor : List ℤ) : List ℕ :=
  let t := tensor.map (fun v => (v % 16).toNat)
  let t2 := if t.length % 2 = 1 then t ++ [0] else t
  List.zipWith (fun lo hi => (lo &&& 15) ||| ((hi &&& 15) <<< 4)) (evens t2) (odds t2)

/-- `unpack_i4` (quantized_model.py lines 168-174): splits every byte into its
low nibble and high nibble (in that order), then maps every nibble `u` to the
signed value `(u & 0xF) - 8`. -/
def unpack_i4 (packed : List ℕ) : List ℤ :=
  (packed.map (fun b => [b &&& 15, (b >>> 4) &&& 15])).flatten.map
    (fun u => ((u &&& 15 : ℕ) : ℤ) - 8)

/-! ### Group-wise quantization (`Q4Linear.from_linear`, lines 112-150) -/

/-- Errors raised by the Python quantization code.  `zeroDivisionError` is
CPython's `ZeroDivisionError`; `runtimeError` stands for the `RuntimeError`s
raised by torch (`torch.ones` with a negative size, `.max()` on an empty
tensor, `torch.cat` on an empty list, slice-assignment shape mismatch).
`invalidConfiguration` is the error class named by the specification's error
taxonomy (spec §7); it appears nowhere in the code and is included only so that
statements about it can be expressed. -/
inductive QuantError where
  | zeroDivisionError
  | runtimeError
  | invalidConfiguration
  deriving DecidableEq, Repr

instance {ε α : Type} [DecidableEq ε] [DecidableEq α] : DecidableEq (Except ε α) := fun x y =>
  match x, y with
  | .error e, .error f =>
    if h : e = f then isTrue (congrArg Except.error h)
    else isFalse (fun hh => h (Except.error.inj hh))
  | .error _, .ok _ => isFalse (fun hh => Except.noConfusion hh)
  | .ok _, .error _ => isFalse (fun hh => Except.noConfusion hh)
  | .ok a, .ok b =>
    if h : a = b then isTrue (congrArg Except.ok h)
    else isFalse (fun hh => h (Except.ok.inj hh))

/-- The floor of a rational: `num / den` with Euclidean integer division
(the denominator is positive, so this is the floor). -/
def qfloor (q : ℚ) : ℤ := q.num / (q.den : ℤ)

/-- `torch.round`: round half to even (banker's rounding). -/
def roundHalfEven (q : ℚ) : ℤ :=
  let f := qfloor q
  let r := q - (f : ℚ)
  if r < 1/2 then f
  else if 1/2 < r then f + 1
  else if f % 2 = 0 then f else f + 1

/-- Binary maximum on integers. -/
def imax (a b : ℤ) : ℤ := if a < b then b else a

/-- Binary minimum on integers. -/
def imin (a b : ℤ) : ℤ := if a < b then a else b

/-- `torch.clamp`: `min (max x lo) hi`. -/
def clampI (x lo hi : ℤ) : ℤ := imin (imax x lo) hi

/-- Absolute value of a rational (`torch.abs`). -/
def qabs (q : ℚ) : ℚ := if q < 0 then -q else q

/-- Binary maximum on rationals (Python `max(a, b)` keeps `a` on ties). -/
def qmax2 (a b : ℚ) : ℚ := if a < b then b else a

/-- `w_group.abs().max()` on a nonempty tensor: the maximum absolute value
(computed with fold initial value `0`, which agrees with the torch maximum on a
nonempty list because absolute values are nonnegative). -/
def maxAbs (l : List ℚ) : ℚ := (l.map qabs).foldr qmax2 0

/-- Python slicing `w[start:stop]` (step 1): a negative index counts from the
end, then both indices are clamped to `[0, len(w)]`. -/
def pySlice (w : List ℚ) (start stop : ℤ) : List ℚ :=
  let n : ℤ := w.length
  let norm := fun (i : ℤ) => (imax 0 (imin (if i < 0 then n + i else i) n)).toNat
  (w.take (norm stop)).drop (norm start)

/-- Per-group scale (lines 133-134): `scale = w_group.abs().max() / qmax` with
`qmax = 7`, floored at `1e-6` by `scale = max(scale, 1e-6)`. -/
def groupScale (g : List ℚ) : ℚ := qmax2 (maxAbs g / 7) (1/1000000)

/-- Per-group integer quantization (line 135):
`q = torch.round(w_group / scale).clamp(qmin, qmax)` with `qmin = -8`,
`qmax = 7`. -/
def quantizeGroup (g : List ℚ) : List ℤ :=
  g.map (fun x => clampI (roundHalfEven (x / groupScale g)) (-8) 7)

/-- The buffers produced by `Q4Linear.from_linear`: concatenated packed bytes,
per-group scales, per-group zero points. -/
structure FLResult where
  packed : List ℕ
  scales : List ℚ
  zeros : List ℚ
  deriving DecidableEq, Repr

/-- `Q4Linear.from_linear` (lines 112-150) on the flattened weight tensor `w`.
The group count is `groups = (n + group_size - 1) // group_size` (Python floor
division, computed first inside `Q4Linear.__init__`, line 96): division by a
zero `group_size` raises `ZeroDivisionError` there, and `torch.ones(groups)`
with a negative `groups` raises a `RuntimeError`.  The loop (lines 127-143)
slices `w.view(-1)[start:end]` with `end = min(start + group_size, n)`; an
empty group makes `w_group.abs().max()` raise a `RuntimeError`, and if the
loop body never ran, `torch.cat(qweight_packed)` on the empty list raises a
`RuntimeError`.  Each group is rounded to `[-8, 7]` against its own scale and
packed with `pack_i4` separately, and the per-group byte strings are
concatenated.  Idealizations: float arithmetic is exact rational arithmetic
(in particular scales are not rounded to float16), and `zero.to(torch.float16)`
(line 143) — which in the source is called on the plain Python float `0.0` and
would raise `AttributeError` — is modelled as its evident intent, the constant
zero value.

The loop's group slices (lines 127-130) are factored into `slicesOf`: for `g`
in `range(groups)` with `groups = (n + group_size - 1) // group_size` (Python
floor division), the slice
`w.view(-1)[g*group_size : min((g+1)*group_size, n)]`. -/
def slicesOf (w : List ℚ) (group_size : ℤ) : List (List ℚ) :=
  (List.range (Int.fdiv ((w.length : ℤ) + group_size - 1) group_size).toNat).map
    (fun (g : ℕ) => pySlice w ((g : ℤ) * group_size)
      (imin ((g : ℤ) * group_size + group_size) (w.length : ℤ)))

/-- See the doc of `slicesOf` above: `Q4Linear.from_linear` quantizes and
packs every group slice and concatenates the per-group byte strings. -/
def from_linear (w : List ℚ) (group_size : ℤ) : Except QuantError FLResult :=
  if group_size = 0 then .error .zeroDivisionError
  else if Int.fdiv ((w.length : ℤ) + group_size - 1) group_size < 0 then
    .error .runtimeError
  else if (slicesOf w group_size).any (·.isEmpty) then .error .runtimeError
  else if (slicesOf w group_size).isEmpty then .error .runtimeError
  else .ok { packed := ((slicesOf w group_size).map (fun s => pack_i4 (quantizeGroup s))).flatten
             scales := (slicesOf w group_size).map groupScale
             zeros := (slicesOf w group_size).map (fun _ => 0) }

/-- The contiguous groups of `gs` elements that the quantization loop slices
out of `w` (the last group may be shorter), in recursive form; proved equal to
the loop's `w[g*gs : min((g+1)*gs, n)]` slices below. -/
def chunkList (gs : ℕ) (w : List ℚ) : List (List ℚ) :=
  if w = [] ∨ gs = 0 then [] else w.take gs :: chunkList gs (w.drop gs)
termination_by w.length
decreasing_by
  simp only [List.length_drop]
  have h1 : w ≠ [] := by tauto
  have h2 : gs ≠ 0 := by tauto
  have h3 := List.length_pos.mpr h1
  omega

/-- The write loop of `dequantize_q4` (lines 184-187): for each group `g`, the
slice assignment `weight[start:end] = unpacked[start:end] * scales[g] + zeros[g]`
with `end = min(start + group_size, unpacked.numel())`.  When the left-hand
slice of the length-`N` buffer is shorter than the right-hand side (which
happens when `end` exceeds `N`), torch raises a shape-mismatch `RuntimeError`. -/
def dequantLoop (unpacked : List ℤ) (gs : ℕ) :
    List (ℚ × ℚ) → ℕ → List ℚ → Except QuantError (List ℚ)
  | [], _, buf => .ok buf
  | (s, z) :: rest, g, buf =>
    let start := g * gs
    let stop := min (start + gs) unpacked.length
    if min stop buf.length - min start buf.length ≠ stop - start then .error .runtimeError
    else
      let vals := ((unpacked.take stop).drop start).map (fun v => (v : ℚ) * s + z)
      dequantLoop unpacked gs rest (g + 1) (buf.take start ++ vals ++ buf.drop stop)

/-- `dequantize_q4` (lines 177-188): unpack the nibbles, then per group write
`unpacked * scale + zero` into a zero-initialized buffer of `out_f * in_f`
elements.  The group count is `scales.numel()`; the code reads `zeros[g]` for
each such `g` (here the two arrays are zipped; they always have equal length in
this development). -/
def dequantize_q4 (qweight : List ℕ) (scales zeros : List ℚ)
    (group_size out_f in_f : ℕ) : Except QuantError (List ℚ) :=
  dequantLoop (unpack_i4 qweight) group_size (scales.zip zeros) 0
    (List.replicate (out_f * in_f) 0)

/-! ### Serialization (`save_q4_weights` / `load_q4_weights`, lines 203-231) -/

/-- The dictionary persisted by `save_q4_weights` (lines 205-214): packed
bytes, scales, zeros, optional bias, and the quantization parameters (of which
only `group_size` varies; `qmin`/`qmax` are fixed at -8/7). -/
structure Q4State where
  qweight : List ℕ
  scales : List ℚ
  zeros : List ℚ
  bias : Option (List ℚ)
  group_size : ℤ
  deriving DecidableEq, Repr

/-- A `Q4Linear` module's persisted state: shape and buffers. -/
structure Q4LinearM where
  in_features : ℤ
  out_features : ℤ
  group_size : ℤ
  qweight : List ℕ
  scales : List ℚ
  zeros : List ℚ
  bias : Option (List ℚ)
  deriving DecidableEq, Repr

/-- `save_q4_weights` (lines 203-215): the persisted dictionary.  (As written
the source also calls `torch.save` without its required file argument — a
`TypeError` at runtime; the embedding models the dictionary that the code
builds for persistence.) -/
def save_q4_weights (m : Q4LinearM) : Q4State :=
  ⟨m.qweight, m.scales, m.zeros, m.bias, m.group_size⟩

/-- `load_q4_weights` (lines 218-231): rebuilds a `Q4Linear` from the persisted
state.  The shape is reconstructed as `out_f = scales.numel()` ("1 группа = 1
выход", line 224) and `in_f = qparams.group_size` (line 225); the buffers are
installed verbatim. -/
def load_q4_weights (s : Q4State) : Q4LinearM :=
  { in_features := s.group_size
    out_features := s.scales.length
    group_size := s.group_size
    qweight := s.qweight
    scales := s.scales
    zeros := s.zeros
    bias := s.bias }

/-! ### The streaming producer (`LLMEngine.generate`, llm_engine_torch.py lines 27-112)

`generate` runs `generate_worker` on a separate thread; the worker pushes each
decoded token text into a FIFO queue, pushes the string `"[Ошибка: …]"` if an
exception escapes the decode loop (lines 90-91), and always pushes the single
sentinel `None` from its `finally` block (line 94).  The consumer loop
(lines 101-110) yields every queued string in order and stops at `None`.  The
queue is single-producer single-consumer and order-preserving, so the stream
the consumer observes is exactly the list of items the worker pushes; we model
that list.  The scoring-and-sampling of one step (lines 61-72) is abstracted as
an oracle `score` from the current token sequence to either a sampled token id
or the message of a raised exception, and the tokenizer's `decode` as a pure
function. -/

/-- One item pushed into `token_queue`: a Python string, or the `None`
sentinel.  (This is the complete alphabet of the stream: the code has no
tagged Success/Cancelled/Error variants.) -/
inductive StreamItem where
  | text (s : String)
  | terminal
  deriving DecidableEq, Repr

/-- Is the item a content (token text) event? -/
def StreamItem.isText : StreamItem → Bool
  | .text _ => true
  | .terminal => false

/-- `generate_worker` (lines 45-94): up to `max_new_tokens` steps; each step
scores the current sequence and samples a token (the oracle `score`), pushes
its decoded text, appends it to the sequence, and stops after pushing an
end-of-sequence token.  A raised exception is caught (line 90) and pushed as
the content string `"[Ошибка: <message>]"` (line 91); the `finally` block
(line 94) always pushes the `None` sentinel.  The loop consults no
cancellation state of any kind: its output is a function of `score`, `decode`,
`eos`, the step budget and the prompt ids alone. -/
def generate_worker (score : List ℕ → Except String ℕ) (decode : ℕ → String)
    (eos : ℕ) : ℕ → List ℕ → List StreamItem
  | 0, _ => [.terminal]
  | fuel + 1, ids =>
    match score ids with
    | .error e => [.text ("[Ошибка: " ++ e ++ "]"), .terminal]
    | .ok tok =>
      .text (decode tok) ::
        (if tok = eos then [.terminal]
         else generate_worker score decode eos fuel (ids ++ [tok]))

/-! ### The sampling pipeline (llm_engine_torch.py lines 59-72 and 134-155)

The decode step divides the logits by the temperature, optionally applies
`_apply_top_k` and `_apply_top_p`, takes a softmax and samples with
`torch.multinomial`.  The tensors are float tensors, and the claims about this
pipeline hinge on the non-finite float values produced by division by zero, so
values are modelled as exact rationals extended with `+inf`, `-inf` and `nan`
with IEEE semantics.  The float exponential is abstracted as `exp : ℚ → ℚ` on
finite arguments. -/

/-- A float value: finite (idealized as an exact rational), an infinity, or
`nan`. -/
inductive FVal where
  | fin (q : ℚ)
  | pinf
  | ninf
  | nan
  deriving DecidableEq, Repr

/-- Is the value finite? -/
def FVal.isFin : FVal → Bool
  | .fin _ => true
  | _ => false

/-- IEEE division (torch `/`): division of a nonzero finite value by zero
gives a signed infinity, `0/0` and `inf/inf` give `nan`, and a finite value
divided by an infinity gives zero. -/
def FVal.div : FVal → FVal → FVal
  | .nan, _ => .nan
  | _, .nan => .nan
  | .fin a, .fin b =>
    if b = 0 then (if a = 0 then .nan else if 0 < a then .pinf else .ninf)
    else .fin (a / b)
  | .fin _, .pinf => .fin 0
  | .fin _, .ninf => .fin 0
  | .pinf, .fin b => if b < 0 then .ninf else .pinf
  | .ninf, .fin b => if b < 0 then .pinf else .ninf
  | .pinf, .pinf => .nan
  | .pinf, .ninf => .nan
  | .ninf, .pinf => .nan
  | .ninf, .ninf => .nan

/-- IEEE subtraction: `inf - inf = nan`, `nan` absorbs. -/
def FVal.sub : FVal → FVal → FVal
  | .nan, _ => .nan
  | _, .nan => .nan
  | .fin a, .fin b => .fin (a - b)
  | .fin _, .pinf => .ninf
  | .fin _, .ninf => .pinf
  | .pinf, .fin _ => .pinf
  | .ninf, .fin _ => .ninf
  | .pinf, .pinf => .nan
  | .pinf, .ninf => .pinf
  | .ninf, .pinf => .ninf
  | .ninf, .ninf => .nan

/-- IEEE addition: `inf + (-inf) = nan`, `nan` absorbs. -/
def FVal.add : FVal → FVal → FVal
  | .nan, _ => .nan
  | _, .nan => .nan
  | .fin a, .fin b => .fin (a + b)
  | .fin _, .pinf => .pinf
  | .pinf, .fin _ => .pinf
  | .fin _, .ninf => .ninf
  | .ninf, .fin _ => .ninf
  | .pinf, .pinf => .pinf
  | .ninf, .ninf => .ninf
  | .pinf, .ninf => .nan
  | .ninf, .pinf => .nan

/-- IEEE comparison `x < y`: every comparison involving `nan` is false. -/
def FVal.lt : FVal → FVal → Bool
  | .nan, _ => false
  | _, .nan => false
  | .fin a, .fin b => decide (a < b)
  | .fin _, .pinf => true
  | .fin _, .ninf => false
  | .pinf, _ => false
  | .ninf, .ninf => false
  | .ninf, _ => true

/-- Sorting rank used by `torch.sort`/`torch.topk`, which order `nan` above
every number: `-inf < finite < +inf < nan`. -/
def FVal.rank : FVal → ℕ
  | .ninf => 0
  | .fin _ => 1
  | .pinf => 2
  | .nan => 3

/-- The rational payload of a finite value (`0` otherwise). -/
def FVal.val : FVal → ℚ
  | .fin q => q
  | _ => 0

/-- Total sorting order on float values: by rank, then by finite payload. -/
def FVal.leS (x y : FVal) : Prop :=
  x.rank < y.rank ∨ (x.rank = y.rank ∧ x.val ≤ y.val)

instance (x y : FVal) : Decidable (x.leS y) := by
  unfold FVal.leS; exact inferInstance

/-- The descending sort relation on float values (`torch.sort` with
`descending=True`). -/
def rdescF (a b : FVal) : Prop := FVal.leS b a

instance : DecidableRel rdescF := fun a b => by unfold rdescF; exact inferInstance

/-- The descending sort relation on (original position, value) pairs, compared
by value: `torch.sort` returns the values together with `sorted_indices`. -/
def rdescP (a b : ℕ × FVal) : Prop := FVal.leS b.2 a.2

instance : DecidableRel rdescP := fun a b => by unfold rdescP; exact inferInstance

instance : IsTotal FVal rdescF := ⟨by
  intro a b
  unfold rdescF FVal.leS
  rcases Nat.lt_trichotomy b.rank a.rank with h | h | h
  · left; left; exact h
  · rcases le_total b.val a.val with hv | hv
    · left; right; exact ⟨h, hv⟩
    · right; right; exact ⟨h.symm, hv⟩
  · right; left; exact h⟩

instance : IsTrans FVal rdescF := ⟨by
  intro a b c hab hbc
  unfold rdescF FVal.leS at *
  rcases hab with h1 | ⟨h1, h1v⟩ <;> rcases hbc with h2 | ⟨h2, h2v⟩
  · left; omega
  · left; omega
  · left; omega
  · right; exact ⟨h2.trans h1, h2v.trans h1v⟩⟩

instance : IsTotal (ℕ × FVal) rdescP := ⟨by
  intro a b
  unfold rdescP FVal.leS
  rcases Nat.lt_trichotomy b.2.rank a.2.rank with h | h | h
  · left; left; exact h
  · rcases le_total b.2.val a.2.val with hv | hv
    · left; right; exact ⟨h, hv⟩
    · right; right; exact ⟨h.symm, hv⟩
  · right; left; exact h⟩

instance : IsTrans (ℕ × FVal) rdescP := ⟨by
  intro a b c hab hbc
  unfold rdescP FVal.leS at *
  rcases hab with h1 | ⟨h1, h1v⟩ <;> rcases hbc with h2 | ⟨h2, h2v⟩
  · left; omega
  · left; omega
  · left; omega
  · right; exact ⟨h2.trans h1, h2v.trans h1v⟩⟩

/-- `torch.sort(descending=True)` on values alone. -/
def sortDescF (l : List FVal) : List FVal := List.insertionSort rdescF l

/-- `_apply_top_k` (lines 134-139): `top_k = min(top_k, vocab)`; the threshold
`torch.topk(logits, top_k)[0][..., -1]` is the `top_k`-th largest logit, i.e.
entry `top_k - 1` of the descending sort; every entry strictly below it is set
to `float('-inf')`.  The caller only invokes this with a truthy (nonzero)
`top_k`, and logits of a model are nonempty, so `min top_k n ≥ 1` and the
`getD` default is immaterial (torch would raise an IndexError on an empty
`topk` result). -/
def apply_top_k (logits : List FVal) (top_k : ℕ) : List FVal :=
  let k := min top_k logits.length
  let thr := (sortDescF logits).getD (k - 1) .nan
  logits.map (fun x => if FVal.lt x thr then .ninf else x)

/-- `exp` on a float value: `exp(-inf) = 0`, `exp(+inf) = +inf`,
`exp(nan) = nan`; on finite values, the abstract float exponential. -/
def FVal.expF (exp : ℚ → ℚ) : FVal → FVal
  | .fin q => .fin (exp q)
  | .pinf => .pinf
  | .ninf => .fin 0
  | .nan => .nan

/-- `torch.max` on two values: `nan` propagates. -/
def FVal.max2 (a b : FVal) : FVal :=
  if a = .nan ∨ b = .nan then .nan else if FVal.leS a b then b else a

/-- `torch.max` reduction over a tensor (nonempty in every use here; torch
raises on an empty tensor, and the placeholder `nan` for `[]` is unreachable). -/
def maxF : List FVal → FVal
  | [] => .nan
  | a :: t => t.foldl FVal.max2 a

/-- Sum reduction. -/
def sumF (l : List FVal) : FVal := l.foldl FVal.add (.fin 0)

/-- `torch.softmax`: the numerically stabilized computation torch implements —
subtract the maximum, exponentiate, normalize by the sum. -/
def softmaxF (exp : ℚ → ℚ) (l : List FVal) : List FVal :=
  let m := maxF l
  let e := l.map (fun x => FVal.expF exp (FVal.sub x m))
  let s := sumF e
  e.map (fun x => FVal.div x s)

/-- `torch.cumsum`: running sums. -/
def cumsumF (l : List FVal) : List FVal := (l.scanl FVal.add (.fin 0)).tail

/-- `torch.sort(logits, descending=True)`: the sorted (original position,
value) pairs; the positions are the `sorted_indices`. -/
def sortedPairsDesc (l : List FVal) : List (ℕ × FVal) :=
  List.insertionSort rdescP l.enum

/-- Lines 148-149: `sorted_indices_to_remove[..., 1:] =
sorted_indices_to_remove[..., :-1]; sorted_indices_to_remove[..., 0] = 0` —
shift the mask right by one and clear the first position. -/
def shiftRightMask : List Bool → List Bool
  | [] => []
  | m => false :: m.dropLast

/-- The removal mask of `_apply_top_p` over sorted positions (lines 143-149):
cumulative softmax probabilities of the descending-sorted logits, compared
against `top_p`, then shifted right with the first position cleared. -/
def topPRemoveMask (exp : ℚ → ℚ) (l : List FVal) (p : ℚ) : List Bool :=
  let sortedVals := (sortedPairsDesc l).map (·.2)
  let cum := cumsumF (softmaxF exp sortedVals)
  shiftRightMask (cum.map (fun c => FVal.lt (.fin p) c))

/-- `_apply_top_p` (lines 141-155).  The `scatter(-1, sorted_indices, mask)`
call sends the flag at sorted position `i` to original position
`sorted_indices[i]`; since `sorted_indices` is a permutation of the positions,
original position `j` receives the flag of `j`'s sorted position.  `removed`
collects exactly the original positions whose flag is set; those positions are
assigned `float('-inf')`. -/
def apply_top_p (exp : ℚ → ℚ) (l : List FVal) (p : ℚ) : List FVal :=
  let pairs := sortedPairsDesc l
  let mask := topPRemoveMask exp l p
  let removed : List ℕ :=
    (pairs.zip mask).filterMap (fun pb => if pb.2 then some pb.1.1 else none)
  l.enum.map (fun ix => if removed.contains ix.1 then .ninf else ix.2)

/-- Is the value rejected by `torch.multinomial`'s validity check
("probability tensor contains either `inf`, `nan` or element < 0")?  `-inf`
is both an infinity and an element below zero. -/
def FVal.isBadProb : FVal → Bool
  | .nan => true
  | .pinf => true
  | .ninf => true
  | .fin q => decide (q < 0)

/-- `torch.multinomial(probs, 1)`: raises on `inf`/`nan`/negative entries,
raises when the total mass is not positive, and otherwise draws an index —
the draw itself is the random oracle `pick`. -/
def multinomialF (probs : List FVal) (pick : List FVal → ℕ) : Except String ℕ :=
  if probs.any FVal.isBadProb then
    .error "RuntimeError: probability tensor contains either inf, nan or element < 0"
  else if FVal.lt (.fin 0) (sumF probs) then .ok (pick probs)
  else .error "RuntimeError: invalid multinomial distribution (sum of probabilities <= 0)"

/-- One decode step of `generate_worker` (lines 59-72): divide the logits by
the temperature (line 62), apply `_apply_top_k` when `top_k` is truthy
(lines 65-66), apply `_apply_top_p` when `top_p` is truthy (lines 67-68), then
softmax and sample with `torch.multinomial` (lines 71-72).  There is no
special case for `temperature = 0`. -/
def sampleStep (exp : ℚ → ℚ) (pick : List FVal → ℕ)
    (temperature : ℚ) (top_k : ℕ) (top_p : ℚ) (logits : List ℚ) : Except String ℕ :=
  let l0 := logits.map (fun x => FVal.div (.fin x) (.fin temperature))
  let l1 := if top_k ≠ 0 then apply_top_k l0 top_k else l0
  let l2 := if top_p ≠ 0 then apply_top_p exp l1 top_p else l1
  multinomialF (softmaxF exp l2) pick

/-- Index of the first cumulative probability exceeding `p` (the list length
when none does). -/
def crossing (p : ℚ) : List FVal → ℕ
  | [] => 0
  | c :: t => if FVal.lt (.fin p) c then 0 else crossing p t + 1

/-- The specification's description of nucleus filtering (spec §4.3 step 4),
stated in its own words for comparison with `_apply_top_p`: the length of the
smallest descending-sorted prefix whose cumulative softmax probability exceeds
`top_p` — at least the single highest entry, and every entry when no prefix
exceeds `top_p`. -/
def nucleusPrefixLen (exp : ℚ → ℚ) (l : List FVal) (p : ℚ) : ℕ :=
  crossing p (cumsumF (softmaxF exp ((sortedPairsDesc l).map (·.2)))) + 1

/-! ### The quantization loop's slices are the contiguous chunks -/

theorem chunkList_nil (gs : ℕ) : chunkList gs [] = [] := by
  rw [chunkList]; simp

theorem chunkList_cons (gs : ℕ) (w : List ℚ) (hw : w ≠ []) (hgs : gs ≠ 0) :
    chunkList gs w = w.take gs :: chunkList gs (w.drop gs) := by
  rw [chunkList]; simp [hw, hgs]

theorem chunkList_mem_ne_nil (gs : ℕ) (hgs : gs ≠ 0) :
    ∀ n (w : List ℚ), w.length ≤ n → ∀ c ∈ chunkList gs w, c ≠ []
  | 0, w, hn => by
    have : w = [] := List.length_eq_zero.mp (by omega)
    subst this; rw [chunkList_nil]; intro c hc; cases hc
  | n + 1, w, hn => by
    rcases eq_or_ne w [] with rfl | hw
    · rw [chunkList_nil]; intro c hc; cases hc
    · rw [chunkList_cons gs w hw hgs]
      intro c hc
      rcases List.mem_cons.mp hc with rfl | hc
      · simp only [ne_eq, List.take_eq_nil_iff]
        push_neg
        exact ⟨hgs, hw⟩
      · have hlen : (w.drop gs).length ≤ n := by
          have := List.length_pos.mpr hw
          simp only [List.length_drop]; omega
        exact chunkList_mem_ne_nil gs hgs n (w.drop gs) hlen c hc

theorem take_min_length {α : Type} (l : List α) (t : ℕ) :
    l.take (min t l.length) = l.take t := by
  rcases le_or_lt t l.length with h | h
  · rw [min_eq_left h]
  · rw [min_eq_right (le_of_lt h), List.take_length, List.take_of_length_le (le_of_lt h)]

theorem drop_min_length {α : Type} (l : List α) (s : ℕ) :
    l.drop (min s l.length) = l.drop s := by
  rcases le_or_lt s l.length with h | h
  · rw [min_eq_left h]
  · rw [min_eq_right (le_of_lt h), List.drop_length,
      List.drop_eq_nil_of_le (le_of_lt h)]

theorem imin_natCast (a b : ℕ) : imin (a : ℤ) (b : ℤ) = ((min a b : ℕ) : ℤ) := by
  simp only [imin]
  split <;> omega

theorem pySlice_natCast (w : List ℚ) (s t : ℕ) :
    pySlice w (s : ℤ) (t : ℤ) = (w.take t).drop s := by
  simp only [pySlice]
  rw [if_neg (show ¬ ((t : ℤ) < 0) by omega), if_neg (show ¬ ((s : ℤ) < 0) by omega)]
  simp only [imin_natCast]
  have h1 : ∀ a : ℕ, (imax 0 ((a : ℕ) : ℤ)).toNat = a := by
    intro a; simp only [imax]; split <;> omega
  rw [h1, h1, take_min_length]
  rcases le_or_lt (min s w.length) (w.take t).length with h | h
  · rcases le_or_lt s w.length with hs2 | hs2
    · rw [min_eq_left hs2]
    · rw [min_eq_right (le_of_lt hs2), List.drop_eq_nil_of_le, List.drop_eq_nil_of_le]
      · simp only [List.length_take]; omega
      · simp only [List.length_take]; omega
  · rw [List.drop_eq_nil_of_le (le_of_lt h), List.drop_eq_nil_of_le]
    simp only [List.length_take] at h ⊢
    omega

theorem fdiv_ofNat (a b : ℕ) : Int.fdiv (a : ℤ) (b : ℤ) = ((a / b : ℕ) : ℤ) := by
  cases a with
  | zero => simp [Int.fdiv]
  | succ a => rfl

theorem groups_succ (gs n : ℕ) (hgs : 0 < gs) (hn : 0 < n) :
    (n + gs - 1) / gs = ((n - gs) + gs - 1) / gs + 1 := by
  rcases le_or_lt n gs with h | h
  · have h1 : n + gs - 1 = (n - 1) + gs := by omega
    have h2 : n - gs = 0 := by omega
    rw [h1, h2, Nat.add_div_right _ hgs, Nat.div_eq_of_lt (by omega),
      Nat.div_eq_of_lt (by omega)]
  · have h1 : n + gs - 1 = ((n - gs) + gs - 1) + gs := by omega
    rw [h1, Nat.add_div_right _ hgs]

theorem range_slices_eq_chunks (gs : ℕ) (hgs : gs ≠ 0) :
    ∀ n (w : List ℚ), w.length ≤ n →
      (List.range ((w.length + gs - 1) / gs)).map
        (fun g => (w.take (g * gs + gs)).drop (g * gs)) = chunkList gs w
  | 0, w, hn => by
    have : w = [] := List.length_eq_zero.mp (by omega)
    subst this
    rw [chunkList_nil]
    simp only [List.length_nil, Nat.zero_add]
    rw [Nat.div_eq_of_lt (show gs - 1 < gs by omega)]
    simp
  | n + 1, w, hn => by
    rcases eq_or_ne w [] with rfl | hw
    · rw [chunkList_nil]
      simp only [List.length_nil, Nat.zero_add]
      rw [Nat.div_eq_of_lt (show gs - 1 < gs by omega)]
      simp
    · have hlen := List.length_pos.mpr hw
      have hdl : (w.drop gs).length = w.length - gs := List.length_drop gs w
      have hstep : ∀ g,
          (w.take (Nat.succ g * gs + gs)).drop (Nat.succ g * gs) =
            ((w.drop gs).take (g * gs + gs)).drop (g * gs) := by
        intro g
        have e1 : gs + (g * gs + gs) = Nat.succ g * gs + gs := by
          simp only [Nat.succ_eq_add_one]; ring
        have e2 : gs + g * gs = Nat.succ g * gs := by
          simp only [Nat.succ_eq_add_one]; ring
        rw [List.take_drop, List.drop_drop, e1, e2]
      rw [groups_succ gs w.length (by omega) hlen, List.range_succ_eq_map,
        List.map_cons, chunkList_cons gs w hw hgs]
      congr 1
      · simp
      · rw [List.map_map]
        have hrec := range_slices_eq_chunks gs hgs n (w.drop gs) (by omega)
        rw [← hrec, hdl]
        exact List.map_congr_left (fun g _ => by
          simp only [Function.comp_apply]
          exact hstep g)

theorem toNat_natCast (n : ℕ) : ((n : ℤ)).toNat = n := by omega

/-- On a nonempty weight list and positive group size, `from_linear` succeeds
and quantizes exactly the contiguous `chunkList` groups: per group it packs the
rounded values and records the group scale and a zero. -/
theorem from_linear_pos (w : List ℚ) (gs : ℤ) (hw : w ≠ []) (hgs : 0 < gs) :
    from_linear w gs = Except.ok
      { packed := ((chunkList gs.toNat w).map (fun s => pack_i4 (quantizeGroup s))).flatten
        scales := (chunkList gs.toNat w).map groupScale
        zeros := (chunkList gs.toNat w).map (fun _ => (0 : ℚ)) } := by
  obtain ⟨k, rfl⟩ : ∃ k : ℕ, gs = (k : ℤ) := ⟨gs.toNat, by omega⟩
  have hk : k ≠ 0 := by omega
  have hgr : Int.fdiv ((w.length : ℤ) + (k : ℤ) - 1) (k : ℤ) =
      (((w.length + k - 1) / k : ℕ) : ℤ) := by
    rw [show ((w.length : ℤ) + (k : ℤ) - 1) = ((w.length + k - 1 : ℕ) : ℤ) by omega]
    exact fdiv_ofNat _ _
  have hslices : slicesOf w (k : ℤ) = chunkList k w := by
    rw [slicesOf, hgr, toNat_natCast, ← range_slices_eq_chunks k hk w.length w le_rfl]
    apply List.map_congr_left
    intro g _
    have e1 : ((g : ℤ)) * (k : ℤ) = ((g * k : ℕ) : ℤ) := by push_cast; ring
    have e2 : ((g * k : ℕ) : ℤ) + (k : ℤ) = ((g * k + k : ℕ) : ℤ) := by push_cast; ring
    rw [e1, e2, imin_natCast, pySlice_natCast, take_min_length]
  have hne : chunkList k w ≠ [] := by
    rw [chunkList_cons k w hw hk]; simp
  have hmem := chunkList_mem_ne_nil k hk w.length w le_rfl
  rw [from_linear]
  rw [if_neg (show ¬ ((k : ℤ) = 0) by omega)]
  rw [hgr]
  rw [if_neg (not_lt.mpr (Int.natCast_nonneg ((w.length + k - 1) / k)))]
  rw [hslices]
  rw [if_neg (show ¬ ((chunkList k w).any (fun x => x.isEmpty) = true) by
    rw [List.any_eq_true]
    rintro ⟨c, hc, hce⟩
    exact hmem c hc (List.isEmpty_iff.mp hce))]
  rw [if_neg (show ¬ ((chunkList k w).isEmpty = true) by
    rw [List.isEmpty_iff]; exact hne)]
  simp only [toNat_natCast]

theorem evens_odds_length : ∀ l : List ℕ,
    (evens l).length = (l.length + 1) / 2 ∧ (odds l).length = l.length / 2 := by
  intro l
  induction l with
  | nil => simp [evens, odds]
  | cons a t ih =>
    refine ⟨?_, ?_⟩
    · simp only [evens, List.length_cons]
      have h2 := ih.2
      omega
    · simp only [odds, List.length_cons]
      have h1 := ih.1
      omega

theorem pack_i4_length (t : List ℤ) : (pack_i4 t).length = (t.length + 1) / 2 := by
  simp only [pack_i4]
  rw [List.length_zipWith]
  have hm : (t.map (fun (v : ℤ) => (v % 16).toNat)).length = t.length := List.length_map _ _
  by_cases h : (t.map (fun (v : ℤ) => (v % 16).toNat)).length % 2 = 1
  · rw [if_pos h]
    have h1 := (evens_odds_length (t.map (fun (v : ℤ) => (v % 16).toNat) ++ [0])).1
    have h2 := (evens_odds_length (t.map (fun (v : ℤ) => (v % 16).toNat) ++ [0])).2
    have h3 : (t.map (fun (v : ℤ) => (v % 16).toNat) ++ [0]).length =
        (t.map (fun (v : ℤ) => (v % 16).toNat)).length + 1 := by simp
    omega
  · rw [if_neg h]
    have h1 := (evens_odds_length (t.map (fun (v : ℤ) => (v % 16).toNat))).1
    have h2 := (evens_odds_length (t.map (fun (v : ℤ) => (v % 16).toNat))).2
    omega

theorem quantizeGroup_length (g : List ℚ) : (quantizeGroup g).length = g.length := by
  simp [quantizeGroup]

theorem chunk_len_sum (gs : ℕ) (hgs : gs ≠ 0) (h2 : gs % 2 = 0) :
    ∀ n (w : List ℚ), w.length ≤ n →
      ((chunkList gs w).map (fun c => (c.length + 1) / 2)).sum = (w.length + 1) / 2
  | 0, w, hn => by
    have : w = [] := List.length_eq_zero.mp (by omega)
    subst this; rw [chunkList_nil]; simp
  | n + 1, w, hn => by
    rcases eq_or_ne w [] with rfl | hw
    · rw [chunkList_nil]; simp
    · have hlen := List.length_pos.mpr hw
      rw [chunkList_cons gs w hw hgs]
      simp only [List.map_cons, List.sum_cons]
      have hrec := chunk_len_sum gs hgs h2 n (w.drop gs)
        (by simp only [List.length_drop]; omega)
      rw [hrec]
      simp only [List.length_take, List.length_drop]
      omega

theorem le_of_fdiv_pos_neg (m : ℤ) (k : ℕ)
    (h : 0 < Int.fdiv m (Int.negSucc k)) : m ≤ Int.negSucc k := by
  cases m with
  | ofNat j =>
    cases j with
    | zero =>
      have h0 : Int.fdiv (Int.ofNat 0) (Int.negSucc k) = 0 := rfl
      rw [h0] at h
      exact absurd h (lt_irrefl 0)
    | succ j =>
      have h0 : Int.fdiv (Int.ofNat (j + 1)) (Int.negSucc k) =
          Int.negSucc (j / (k + 1)) := rfl
      rw [h0] at h
      exact absurd h (not_lt.mpr (le_of_lt (Int.negSucc_lt_zero _)))
  | negSucc j =>
    have h0 : Int.fdiv (Int.negSucc j) (Int.negSucc k) =
        Int.ofNat ((j + 1) / (k + 1)) := rfl
    have he0 : Int.ofNat ((j + 1) / (k + 1)) = (((j + 1) / (k + 1) : ℕ) : ℤ) := rfl
    rw [h0, he0] at h
    have h1 : 1 ≤ (j + 1) / (k + 1) := by omega
    have h3 : k + 1 ≤ j + 1 := (Nat.one_le_div_iff (by omega)).mp h1
    have he1 := Int.negSucc_eq j
    have he2 := Int.negSucc_eq k
    omega

theorem pySlice_neg_stop (w : List ℚ) (t : ℤ) (ht : t < 0)
    (hts : (w.length : ℤ) + t ≤ 0) : pySlice w 0 t = [] := by
  have hstop : (imax 0 (imin (if t < 0 then (w.length : ℤ) + t else t)
      (w.length : ℤ))).toNat = 0 := by
    simp only [imin, imax]; split_ifs <;> omega
  have hstart : (imax 0 (imin (if (0 : ℤ) < 0 then (w.length : ℤ) + 0 else 0)
      (w.length : ℤ))).toNat = 0 := by
    simp only [imin, imax]; split_ifs <;> omega
  simp only [pySlice, hstop, hstart, List.take_zero, List.drop_nil]

theorem chunkList_gs1_pair : chunkList 1 [1, 1] = [[1], [1]] := by
  rw [chunkList_cons 1 [1, 1] (by simp) one_ne_zero]
  norm_num
  rw [chunkList_cons 1 [1] (by simp) one_ne_zero]
  norm_num [chunkList_nil]

/-! ### Evaluation lemmas for the concrete quantization examples -/

theorem quantizeGroup_row : quantizeGroup [1, -1, 2, -2] = [4, -4, 7, -7] := by
  norm_num [quantizeGroup, groupScale, maxAbs, qabs, qmax2, roundHalfEven, qfloor,
    clampI, imin, imax]

theorem groupScale_row : groupScale [1, -1, 2, -2] = 2/7 := by
  norm_num [groupScale, maxAbs, qabs, qmax2]

theorem from_linear_row : from_linear [1, -1, 2, -2] 4 = .ok ⟨[196, 151], [2/7], [0]⟩ := by
  rw [from_linear_pos [1, -1, 2, -2] 4 (by simp) (by omega)]
  rw [show chunkList (4 : ℤ).toNat [1, -1, 2, -2] = [[1, -1, 2, -2]] from by
    rw [show ((4 : ℤ)).toNat = 4 from rfl,
      chunkList_cons 4 [1, -1, 2, -2] (by simp) (by omega)]
    norm_num [chunkList_nil]]
  norm_num [quantizeGroup_row, groupScale_row,
    show pack_i4 [4, -4, 7, -7] = [196, 151] from by decide]

theorem dequantize_row : dequantize_q4 [196, 151] [2/7] [0] 4 1 4 =
    .ok [-8/7, 8/7, -2/7, 2/7] := by
  norm_num [dequantize_q4, dequantLoop,
    show unpack_i4 [196, 151] = [-4, 4, -1, 1] from by decide, List.replicate]

theorem from_linear_pair : from_linear [1, -1] 128 = .ok ⟨[151], [1/7], [0]⟩ := by
  rw [from_linear_pos [1, -1] 128 (by simp) (by omega)]
  rw [show chunkList (128 : ℤ).toNat [1, -1] = [[1, -1]] from by
    rw [show ((128 : ℤ)).toNat = 128 from rfl,
      chunkList_cons 128 [1, -1] (by simp) (by omega)]
    norm_num [chunkList_nil]]
  norm_num [show quantizeGroup [1, -1] = [7, -7] from by
      norm_num [quantizeGroup, groupScale, maxAbs, qabs, qmax2, roundHalfEven, qfloor,
        clampI, imin, imax],
    show groupScale [1, -1] = 1/7 from by norm_num [groupScale, maxAbs, qabs, qmax2],
    show pack_i4 [7, -7] = [151] from by decide]

theorem from_linear_gs1 : from_linear [1, 1] 1 = .ok ⟨[7, 7], [1/7, 1/7], [0, 0]⟩ := by
  rw [from_linear_pos [1, 1] 1 (by simp) (by omega)]
  norm_num [show (1 : ℤ).toNat = 1 from rfl, chunkList_gs1_pair,
    show quantizeGroup [1] = [7] from by
      norm_num [quantizeGroup, groupScale, maxAbs, qabs, qmax2, roundHalfEven, qfloor,
        clampI, imin, imax],
    show groupScale [1] = 1/7 from by norm_num [groupScale, maxAbs, qabs, qmax2],
    show pack_i4 [7] = [7] from by decide]

/-! ### Non-finite values poison the sampling pipeline -/

theorem FVal.sub_nan (x : FVal) : FVal.sub x .nan = .nan := by cases x <;> rfl

theorem FVal.add_nan_left (x : FVal) : FVal.add .nan x = .nan := by cases x <;> rfl

theorem FVal.add_nan_right (x : FVal) : FVal.add x .nan = .nan := by cases x <;> rfl

theorem FVal.div_nan_right (x : FVal) : FVal.div x .nan = .nan := by cases x <;> rfl

theorem div_zero_nonfin (x : ℚ) : (FVal.div (.fin x) (.fin 0)).isFin = false := by
  simp only [FVal.div, if_pos rfl]
  split_ifs <;> rfl

theorem foldl_add_nan : ∀ (l : List FVal) (acc : FVal),
    FVal.nan ∈ l ∨ acc = FVal.nan → l.foldl FVal.add acc = FVal.nan := by
  intro l
  induction l with
  | nil =>
    intro acc h
    rcases h with h | rfl
    · cases h
    · rfl
  | cons b t ih =>
    intro acc h
    simp only [List.foldl_cons]
    apply ih
    rcases h with h | rfl
    · rcases List.mem_cons.mp h with rfl | h
      · right; exact FVal.add_nan_right acc
      · left; exact h
    · right; exact FVal.add_nan_left b

theorem sumF_nan (l : List FVal) (h : FVal.nan ∈ l) : sumF l = .nan :=
  foldl_add_nan l (.fin 0) (Or.inl h)

theorem max2_cases (a b : FVal) :
    FVal.max2 a b = a ∨ FVal.max2 a b = b ∨ FVal.max2 a b = .nan := by
  unfold FVal.max2
  split_ifs <;> tauto

theorem foldl_max2_mem : ∀ (t : List FVal) (acc : FVal),
    t.foldl FVal.max2 acc = acc ∨ t.foldl FVal.max2 acc ∈ t ∨
      t.foldl FVal.max2 acc = .nan := by
  intro t
  induction t with
  | nil => intro acc; left; rfl
  | cons b t ih =>
    intro acc
    simp only [List.foldl_cons]
    rcases ih (FVal.max2 acc b) with h | h | h
    · rcases max2_cases acc b with h2 | h2 | h2
      · left; rw [h, h2]
      · right; left; rw [h, h2]; exact List.mem_cons_self b t
      · right; right; rw [h, h2]
    · right; left; exact List.mem_cons_of_mem b h
    · right; right; exact h

theorem maxF_mem (l : List FVal) (hl : l ≠ []) : maxF l ∈ l ∨ maxF l = .nan := by
  cases l with
  | nil => exact absurd rfl hl
  | cons a t =>
    rw [maxF]
    rcases foldl_max2_mem t a with h | h | h
    · left; rw [h]; exact List.mem_cons_self a t
    · left; exact List.mem_cons_of_mem a h
    · right; exact h

theorem max2_eq_ninf (a b : FVal) (h : FVal.max2 a b = .ninf) :
    a = .ninf ∧ b = .ninf := by
  unfold FVal.max2 at h
  split_ifs at h with h1 h2
  · subst h
    refine ⟨?_, rfl⟩
    cases a <;> simp_all [FVal.leS, FVal.rank, FVal.val]
  · subst h
    refine ⟨rfl, ?_⟩
    cases b <;> simp_all [FVal.leS, FVal.rank, FVal.val]

theorem foldl_max2_ninf : ∀ (t : List FVal) (acc : FVal),
    t.foldl FVal.max2 acc = .ninf → acc = .ninf ∧ ∀ x ∈ t, x = .ninf := by
  intro t
  induction t with
  | nil => intro acc h; exact ⟨h, by intro x hx; cases hx⟩
  | cons b t ih =>
    intro acc h
    simp only [List.foldl_cons] at h
    obtain ⟨h1, h2⟩ := ih (FVal.max2 acc b) h
    obtain ⟨h3, h4⟩ := max2_eq_ninf acc b h1
    refine ⟨h3, ?_⟩
    intro x hx
    rcases List.mem_cons.mp hx with rfl | hx
    · exact h4
    · exact h2 x hx

theorem maxF_eq_ninf (l : List FVal) (h : maxF l = .ninf) : ∀ x ∈ l, x = .ninf := by
  cases l with
  | nil => intro x hx; cases hx
  | cons a t =>
    rw [maxF] at h
    obtain ⟨h1, h2⟩ := foldl_max2_ninf t a h
    intro x hx
    rcases List.mem_cons.mp hx with rfl | hx
    · exact h1
    · exact h2 x hx

theorem softmax_nonfin_all_nan (exp : ℚ → ℚ) (l : List FVal) (hl : l ≠ [])
    (h : ∀ x ∈ l, x.isFin = false) : ∀ y ∈ softmaxF exp l, y = FVal.nan := by
  intro y hy
  simp only [softmaxF] at hy
  cases hmax : maxF l with
  | fin q =>
    rcases maxF_mem l hl with hm | hm
    · have := h _ hm
      rw [hmax] at this
      cases this
    · rw [hmax] at hm; cases hm
  | pinf =>
    have hpinf : FVal.pinf ∈ l := by
      rcases maxF_mem l hl with hm | hm
      · rw [hmax] at hm; exact hm
      · rw [hmax] at hm; cases hm
    rw [hmax] at hy
    have hnan : FVal.nan ∈ l.map (fun x => FVal.expF exp (FVal.sub x .pinf)) :=
      List.mem_map.mpr ⟨.pinf, hpinf, rfl⟩
    rw [sumF_nan _ hnan] at hy
    obtain ⟨x, _, rfl⟩ := List.mem_map.mp hy
    exact FVal.div_nan_right x
  | ninf =>
    have hall := maxF_eq_ninf l hmax
    rw [hmax] at hy
    have hnan : FVal.nan ∈ l.map (fun x => FVal.expF exp (FVal.sub x .ninf)) := by
      obtain ⟨a, ha⟩ := List.exists_mem_of_ne_nil l hl
      refine List.mem_map.mpr ⟨a, ha, ?_⟩
      rw [hall a ha]
      rfl
    rw [sumF_nan _ hnan] at hy
    obtain ⟨x, hx, rfl⟩ := List.mem_map.mp hy
    exact FVal.div_nan_right _
  | nan =>
    rw [hmax] at hy
    have hnan : FVal.nan ∈ l.map (fun x => FVal.expF exp (FVal.sub x .nan)) := by
      obtain ⟨a, ha⟩ := List.exists_mem_of_ne_nil l hl
      refine List.mem_map.mpr ⟨a, ha, ?_⟩
      rw [FVal.sub_nan]
      rfl
    rw [sumF_nan _ hnan] at hy
    obtain ⟨x, hx, rfl⟩ := List.mem_map.mp hy
    exact FVal.div_nan_right _

theorem topk_preserves_nonfin (l : List FVal) (k : ℕ)
    (h : ∀ x ∈ l, x.isFin = false) : ∀ y ∈ apply_top_k l k, y.isFin = false := by
  intro y hy
  simp only [apply_top_k, List.mem_map] at hy
  obtain ⟨x, hx, rfl⟩ := hy
  split_ifs
  · rfl
  · exact h x hx

theorem topp_preserves_nonfin (exp : ℚ → ℚ) (l : List FVal) (p : ℚ)
    (h : ∀ x ∈ l, x.isFin = false) : ∀ y ∈ apply_top_p exp l p, y.isFin = false := by
  intro y hy
  simp only [apply_top_p, List.mem_map] at hy
  obtain ⟨⟨j, x⟩, hx, rfl⟩ := hy
  dsimp only
  split_ifs
  · rfl
  · refine h x ?_
    have := List.mem_map_of_mem Prod.snd hx
    rwa [List.enum_map_snd] at this

theorem apply_top_k_length (l : List FVal) (k : ℕ) :
    (apply_top_k l k).length = l.length := by
  simp [apply_top_k]

theorem apply_top_p_length (exp : ℚ → ℚ) (l : List FVal) (p : ℚ) :
    (apply_top_p exp l p).length = l.length := by
  simp [apply_top_p]

theorem multinomialF_nan (probs : List FVal) (pick : List FVal → ℕ)
    (h : FVal.nan ∈ probs) :
    multinomialF probs pick =
      Except.error "RuntimeError: probability tensor contains either inf, nan or element < 0" := by
  rw [multinomialF, if_pos (List.any_eq_true.mpr ⟨_, h, rfl⟩)]

/-! ### Counting retained entries under the top-k filter -/

theorem leS_refl (x : FVal) : x.leS x := Or.inr ⟨rfl, le_refl _⟩

theorem fin_leS_fin (a b : ℚ) : FVal.leS (.fin a) (.fin b) ↔ a ≤ b := by
  simp [FVal.leS, FVal.rank, FVal.val]

theorem countP_ge_of_prefix {α : Type} (p : α → Bool) :
    ∀ (s : List α) (k : ℕ), k ≤ s.length →
      (∀ i (h : i < s.length), i < k → p (s.get ⟨i, h⟩) = true) →
      k ≤ s.countP p := by
  intro s
  induction s with
  | nil =>
    intro k hk _
    simp only [List.length_nil] at hk
    omega
  | cons a t ih =>
    intro k hk hin
    cases k with
    | zero => exact Nat.zero_le _
    | succ k =>
      have hpa : p a = true := hin 0 (by simp) (by omega)
      rw [List.countP_cons_of_pos _ _ hpa]
      have hrec := ih k (by simp only [List.length_cons] at hk; omega)
        (fun i h hik => hin (i + 1) (by simp only [List.length_cons]; omega) (by omega))
      omega

theorem countP_eq_of_prefix {α : Type} (p : α → Bool) :
    ∀ (s : List α) (k : ℕ), k ≤ s.length →
      (∀ i (h : i < s.length), i < k → p (s.get ⟨i, h⟩) = true) →
      (∀ i (h : i < s.length), k ≤ i → p (s.get ⟨i, h⟩) = false) →
      s.countP p = k := by
  intro s
  induction s with
  | nil =>
    intro k hk _ _
    simp only [List.length_nil] at hk
    simp only [List.countP_nil]
    omega
  | cons a t ih =>
    intro k hk hin hout
    cases k with
    | zero =>
      have hpa : p a = false := hout 0 (by simp) (by omega)
      rw [List.countP_cons_of_neg _ _ (by rw [hpa]; exact Bool.false_ne_true)]
      exact ih 0 (by omega)
        (fun i h hik => by omega)
        (fun i h _ => hout (i + 1) (by simp only [List.length_cons]; omega) (by omega))
    | succ k =>
      have hpa : p a = true := hin 0 (by simp) (by omega)
      rw [List.countP_cons_of_pos _ _ hpa]
      rw [ih k (by simp only [List.length_cons] at hk; omega)
        (fun i h hik => hin (i + 1) (by simp only [List.length_cons]; omega) (by omega))
        (fun i h hik => hout (i + 1) (by simp only [List.length_cons]; omega) (by omega))]

/-! ### Nucleus filter analysis (`_apply_top_p`, lines 141-155) -/

/-- A list whose members are all finite is the image of a rational list. -/
theorem exists_map_fin : ∀ (s : List FVal), (∀ x ∈ s, FVal.isFin x = true) →
    ∃ vs : List ℚ, s = vs.map FVal.fin := by
  intro s
  induction s with
  | nil => intro _; exact ⟨[], rfl⟩
  | cons a t ih =>
    intro h
    obtain ⟨vs, hvs⟩ := ih (fun x hx => h x (List.mem_cons_of_mem _ hx))
    cases a with
    | fin q => exact ⟨q :: vs, by rw [List.map_cons, hvs]⟩
    | pinf => exact absurd (h _ (List.mem_cons_self _ _)) (by simp [FVal.isFin])
    | ninf => exact absurd (h _ (List.mem_cons_self _ _)) (by simp [FVal.isFin])
    | nan => exact absurd (h _ (List.mem_cons_self _ _)) (by simp [FVal.isFin])

/-- Float addition folded over finite values is rational addition. -/
theorem foldl_addF : ∀ (qs : List ℚ) (a : ℚ),
    (qs.map FVal.fin).foldl FVal.add (.fin a) = .fin (qs.foldl (· + ·) a) := by
  intro qs
  induction qs with
  | nil => intro a; rfl
  | cons q t ih =>
    intro a
    simp only [List.map_cons, List.foldl_cons]
    have he : FVal.add (.fin a) (.fin q) = .fin (a + q) := rfl
    rw [he]
    exact ih (a + q)

/-- Float running sums over finite values are rational running sums. -/
theorem scanl_addF : ∀ (qs : List ℚ) (a : ℚ),
    (qs.map FVal.fin).scanl FVal.add (.fin a) = (qs.scanl (· + ·) a).map FVal.fin := by
  intro qs
  induction qs with
  | nil => intro a; rfl
  | cons q t ih =>
    intro a
    simp only [List.map_cons, List.scanl_cons]
    have he : FVal.add (.fin a) (.fin q) = .fin (a + q) := rfl
    rw [he, ih]
    simp

/-- `cumsumF` on finite values computes the rational running sums. -/
theorem cumsumF_fin (qs : List ℚ) :
    cumsumF (qs.map FVal.fin) = ((qs.scanl (· + ·) 0).tail).map FVal.fin := by
  unfold cumsumF
  rw [scanl_addF]
  exact (List.map_tail _ _).symm

/-- Running sums of nonnegative values are monotone. -/
theorem chain_le_scanl : ∀ (qs : List ℚ), (∀ q ∈ qs, 0 ≤ q) →
    ∀ a : ℚ, List.Chain' (· ≤ ·) (qs.scanl (· + ·) a) := by
  intro qs
  induction qs with
  | nil => intro _ a; simp
  | cons q t ih =>
    intro h a
    show List.Chain' (· ≤ ·) (a :: List.scanl (· + ·) (a + q) t)
    apply List.chain'_cons'.mpr
    refine ⟨?_, ih (fun x hx => h x (List.mem_cons_of_mem _ hx)) (a + q)⟩
    intro b hb
    have hhead : (List.scanl (· + ·) (a + q) t).head? = some (a + q) := by
      cases t <;> rfl
    rw [hhead] at hb
    have hb2 : a + q = b := Option.mem_some_iff.mp hb
    have hq : 0 ≤ q := h q (List.mem_cons_self _ _)
    rw [← hb2]
    linarith

/-- A fold of strictly positive values starting from a nonnegative seed is
strictly positive once the list is nonempty. -/
theorem foldl_add_pos : ∀ (qs : List ℚ) (a : ℚ), (∀ q ∈ qs, 0 < q) → qs ≠ [] →
    0 ≤ a → 0 < qs.foldl (· + ·) a := by
  intro qs
  induction qs with
  | nil => intro a _ hne _; exact absurd rfl hne
  | cons q t ih =>
    intro a h _ ha
    rw [List.foldl_cons]
    have hq : 0 < q := h q (List.mem_cons_self _ _)
    by_cases ht : t = []
    · subst ht
      simp only [List.foldl_nil]
      linarith
    · exact ih (a + q) (fun x hx => h x (List.mem_cons_of_mem _ hx)) ht (by linarith)

/-- `torch.max` of two finite values is finite. -/
theorem foldl_max2_fin : ∀ (t : List ℚ) (a : ℚ),
    ∃ m : ℚ, (t.map FVal.fin).foldl FVal.max2 (.fin a) = .fin m := by
  intro t
  induction t with
  | nil => intro a; exact ⟨a, rfl⟩
  | cons q s ih =>
    intro a
    simp only [List.map_cons, List.foldl_cons]
    have hcond : ¬(FVal.fin a = FVal.nan ∨ FVal.fin q = FVal.nan) := by simp
    by_cases hle : (FVal.fin a).leS (FVal.fin q)
    · rw [show FVal.max2 (.fin a) (.fin q) = FVal.fin q from by
        unfold FVal.max2
        rw [if_neg hcond, if_pos hle]]
      exact ih q
    · rw [show FVal.max2 (.fin a) (.fin q) = FVal.fin a from by
        unfold FVal.max2
        rw [if_neg hcond, if_neg hle]]
      exact ih a

/-- The `torch.max` reduction of a nonempty finite tensor is finite. -/
theorem maxF_fin (vs : List ℚ) (hne : vs ≠ []) :
    ∃ m : ℚ, maxF (vs.map FVal.fin) = .fin m := by
  cases vs with
  | nil => exact absurd rfl hne
  | cons v t =>
    simp only [List.map_cons, maxF]
    exact foldl_max2_fin t v

/-- The softmax of a nonempty finite tensor, when the abstract exponential is
strictly positive, is a finite tensor of the same length with strictly
positive entries. -/
theorem softmax_fin_pos (exp : ℚ → ℚ) (hexp : ∀ x, 0 < exp x)
    (vs : List ℚ) (hne : vs ≠ []) :
    ∃ ps : List ℚ, softmaxF exp (vs.map FVal.fin) = ps.map FVal.fin ∧
      ps.length = vs.length ∧ ∀ p ∈ ps, 0 < p := by
  obtain ⟨m, hm⟩ := maxF_fin vs hne
  have hS : 0 < (vs.map (fun x => exp (x - m))).foldl (· + ·) 0 := by
    apply foldl_add_pos _ 0 ?_ ?_ (le_refl 0)
    · intro q hq
      obtain ⟨x, _, hx⟩ := List.mem_map.mp hq
      rw [← hx]
      exact hexp _
    · simpa using hne
  refine ⟨(vs.map (fun x => exp (x - m))).map
      (fun q => q / ((vs.map (fun x => exp (x - m))).foldl (· + ·) 0)), ?_, ?_, ?_⟩
  · simp only [softmaxF, sumF]
    rw [hm]
    have he : (vs.map FVal.fin).map (fun x => FVal.expF exp (FVal.sub x (.fin m)))
        = (vs.map (fun x => exp (x - m))).map FVal.fin := by
      rw [List.map_map, List.map_map]
      exact List.map_congr_left (fun x _ => rfl)
    rw [he, foldl_addF]
    simp only [List.map_map]
    apply List.map_congr_left
    intro x _
    simp only [Function.comp_apply]
    show FVal.div (.fin (exp (x - m))) (.fin _) = FVal.fin (exp (x - m) / _)
    simp only [FVal.div]
    rw [if_neg hS.ne']
  · simp
  · intro q hq
    obtain ⟨r, hr, hrq⟩ := List.mem_map.mp hq
    obtain ⟨x, _, hxr⟩ := List.mem_map.mp hr
    rw [← hrq]
    exact div_pos (by rw [← hxr]; exact hexp _) hS

/-- On a monotone list of cumulative sums, the entries strictly above `p` are
exactly the positions at or beyond the crossing index. -/
theorem crossing_spec (p : ℚ) : ∀ (cs : List ℚ), List.Pairwise (· ≤ ·) cs →
    ∀ i (h : i < cs.length),
      (p < cs[i] ↔ crossing p (cs.map FVal.fin) ≤ i) := by
  intro cs
  induction cs with
  | nil => intro _ i h; simp at h
  | cons c t ih =>
    intro hpw i h
    have hhead : ∀ x ∈ t, c ≤ x := (List.pairwise_cons.mp hpw).1
    have hpt : List.Pairwise (· ≤ ·) t := (List.pairwise_cons.mp hpw).2
    simp only [List.map_cons, crossing]
    by_cases hc : p < c
    · have hlt : FVal.lt (.fin p) (.fin c) = true := decide_eq_true hc
      rw [if_pos hlt]
      constructor
      · intro _
        omega
      · intro _
        cases i with
        | zero => simpa using hc
        | succ j =>
          have hj : j < t.length := by
            simp only [List.length_cons] at h
            omega
          simp only [List.getElem_cons_succ]
          exact lt_of_lt_of_le hc (hhead _ (List.getElem_mem hj))
    · have hlt : FVal.lt (.fin p) (.fin c) = false := decide_eq_false hc
      rw [if_neg (by rw [hlt]; exact Bool.false_ne_true)]
      cases i with
      | zero =>
        simp only [List.getElem_cons_zero]
        constructor
        · intro hx
          exact absurd hx hc
        · intro hx
          omega
      | succ j =>
        have hj : j < t.length := by
          simp only [List.length_cons] at h
          omega
        simp only [List.getElem_cons_succ]
        have hiff := ih hpt j hj
        constructor
        · intro hx
          have := hiff.mp hx
          omega
        · intro hx
          exact hiff.mpr (by omega)

/-- The crossing index never exceeds the list length. -/
theorem crossing_le_length (p : ℚ) : ∀ (l : List FVal), crossing p l ≤ l.length := by
  intro l
  induction l with
  | nil => simp [crossing]
  | cons c t ih =>
    simp only [crossing, List.length_cons]
    split_ifs with h
    · omega
    · omega

/-- The shift-right-and-clear-first operation preserves length. -/
theorem shiftRightMask_length : ∀ (m : List Bool), (shiftRightMask m).length = m.length := by
  intro m
  cases m with
  | nil => rfl
  | cons a t => simp [shiftRightMask]

/-- The first entry of a shifted mask is cleared. -/
theorem shiftRightMask_getElem_zero (m : List Bool) (h : 0 < (shiftRightMask m).length) :
    (shiftRightMask m)[0] = false := by
  cases m with
  | nil => simp [shiftRightMask] at h
  | cons a t => rfl

/-- Later entries of a shifted mask read the previous position. -/
theorem shiftRightMask_getElem_succ (m : List Bool) (i : ℕ)
    (h : i + 1 < (shiftRightMask m).length) (h2 : i < m.length) :
    (shiftRightMask m)[i + 1] = m[i] := by
  cases m with
  | nil => simp [shiftRightMask] at h
  | cons a t =>
    have hlen : i < ((a :: t).dropLast).length := by
      rw [shiftRightMask_length] at h
      simp only [List.length_dropLast, List.length_cons] at *
      omega
    have hstep : shiftRightMask (a :: t) = false :: (a :: t).dropLast := rfl
    simp only [hstep, List.getElem_cons_succ]
    exact List.getElem_dropLast _ _ _

/-! ### Claim theorems -/

/-- C1: the claim states `unpack_i4 (pack_i4 values) = values` for 4-bit
signed values in `[-8, 7]`.  The code violates it: `pack_i4` encodes the
two's-complement nibble `v & 0xF` while `unpack_i4` decodes offset-binary
(`(u & 0xF) - 8`), so the round trip on `[1, -1, 2, -2]` returns
`[-7, 7, -6, 6]` — the codec's evident intent (a lossless round trip, also
asserted by the docstrings "Сжимает int8 [-8..7]" / "Распаковывает uint8 ->
int8") is broken by the mismatched sign conventions. -/
theorem unpack_pack_no_roundtrip :
    unpack_i4 (pack_i4 [1, -1, 2, -2]) = [-7, 7, -6, 6] ∧
    unpack_i4 (pack_i4 [1, -1, 2, -2]) ≠ [1, -1, 2, -2] := by decide

/-- C2: the claim bounds the elementwise error of
`dequantize(quantize(W))` by `scale/2` plus rounding.  On the weight row
`[1, -1, 2, -2]` with `group_size = 4` (the spec's own §8 scenario, expected
dequantization ≈ `[1.143, -1.143, 2, -2]`), the code produces
`[-8/7, 8/7, -2/7, 2/7]`: the first element is off by `15/7 ≈ 2.14`, far
beyond `scale/2 = 1/7 ≈ 0.143`, because `unpack_i4` mis-decodes the nibbles
`pack_i4` wrote (see C1). -/
theorem dequantize_quantize_violates_bound :
    from_linear [1, -1, 2, -2] 4 = Except.ok ⟨[196, 151], [2/7], [0]⟩ ∧
    dequantize_q4 [196, 151] [2/7] [0] 4 1 4 =
      Except.ok [-8/7, 8/7, -2/7, 2/7] ∧
    ¬ |(-8/7 : ℚ) - 1| ≤ (2/7) / 2 :=
  ⟨from_linear_row, dequantize_row, by rw [abs_of_neg (by norm_num)]; norm_num⟩

/-- C3 counterexample: save-then-load does not reproduce the original shape.
`from_linear` on the flattened 1×2 weight `[1, -1]` with the default
`group_size = 128` yields one group; loading the saved state of that layer
reconstructs `in_features = group_size = 128` and `out_features = 1` instead
of the original `(out, in) = (1, 2)`. -/
theorem save_load_shape_counterexample :
    from_linear [1, -1] 128 = Except.ok ⟨[151], [1/7], [0]⟩ ∧
    (load_q4_weights (save_q4_weights (Q4LinearM.mk 2 1 128 [151] [1/7] [0] none))).in_features ≠
      (Q4LinearM.mk 2 1 128 [151] [1/7] [0] none).in_features :=
  ⟨from_linear_pair, by simp [load_q4_weights, save_q4_weights]⟩

/-- C3 amended: loading the saved state reproduces the packed bytes, scale
array, zero array, bias and group size verbatim, but reconstructs the shape as
`out_features = scales.numel()` and `in_features = group_size`, which agrees
with the original shape only when the original layer had those dimensions. -/
theorem save_load_roundtrip_fields (m : Q4LinearM) :
    load_q4_weights (save_q4_weights m) =
      { m with in_features := m.group_size, out_features := m.scales.length } := by
  cases m; rfl

/-- C4 counterexample: the claim says cancelling between decode steps yields
one Cancelled sentinel and zero further token events.  The worker consults no
cancellation state (lines 45-94 read none), so a cancellation request after
the first step leaves the stream unchanged: with a scorer that keeps sampling
token 5 (eos = 0) and a budget of 3 steps, two further content events follow
the first step, and the only sentinel in the stream's alphabet is the untagged
terminal `None` — no Cancelled variant exists. -/
theorem cancellation_no_effect_counterexample :
    (generate_worker (fun _ => Except.ok 5) (fun _ => "t") 0 3 []).drop 1 =
      [StreamItem.text "t", StreamItem.text "t", StreamItem.terminal] ∧
    ((generate_worker (fun _ => Except.ok 5) (fun _ => "t") 0 3 []).drop 1).countP
      StreamItem.isText = 2 := by decide

/-- C4 amended: the engine has no cancellation mechanism.  The worker's stream
is a function of the scoring oracle, decoder, eos id, step budget and prompt
alone — there is no cancellation state it could consult — and it always
consists of content events followed by exactly one untagged terminal sentinel
(the same `None` used for success). -/
theorem generate_worker_stream_shape (score : List ℕ → Except String ℕ)
    (decode : ℕ → String) (eos : ℕ) (fuel : ℕ) (ids : List ℕ) :
    ∃ ts : List String,
      generate_worker score decode eos fuel ids =
        ts.map StreamItem.text ++ [StreamItem.terminal] := by
  induction fuel generalizing ids with
  | zero => exact ⟨[], rfl⟩
  | succ n ih =>
    cases h : score ids with
    | error e => exact ⟨["[Ошибка: " ++ e ++ "]"], by simp [generate_worker, h]⟩
    | ok tok =>
      by_cases ht : tok = eos
      · exact ⟨[decode tok], by simp [generate_worker, h, ht]⟩
      · obtain ⟨ts, hts⟩ := ih (ids ++ [tok])
        exact ⟨decode tok :: ts, by simp [generate_worker, h, ht, hts]⟩

/-- C5 counterexample: the claim says the consumer receives a terminal Error
sentinel distinguished from content events.  In the code an exception is
pushed as the plain content string "[Ошибка: …]" followed by the same `None`
sentinel used for success: a run whose first step raises "x" produces a stream
identical to a successful run that decodes its eos token as "[Ошибка: x]" —
the two outcomes cannot be told apart. -/
theorem error_sentinel_indistinguishable :
    generate_worker (fun _ => Except.error "x") (fun _ => "t") 0 3 [] =
      generate_worker (fun _ => Except.ok 7) (fun _ => "[Ошибка: x]") 7 1 [] ∧
    generate_worker (fun _ => Except.error "x") (fun _ => "t") 0 3 [] =
      [StreamItem.text "[Ошибка: x]", StreamItem.terminal] := ⟨rfl, rfl⟩

/-- C5 amended: an exception raised during a step is captured by the worker
and delivered through the stream — as the content string "[Ошибка: <msg>]"
followed by the single `None` terminal sentinel — so it is never raised where
no consumer can observe it, but it is an ordinary content event, not a
distinguished Error sentinel. -/
theorem exception_captured_as_content (score : List ℕ → Except String ℕ)
    (decode : ℕ → String) (eos : ℕ) (fuel : ℕ) (ids : List ℕ) (msg : String)
    (hs : score ids = Except.error msg) (hf : 0 < fuel) :
    generate_worker score decode eos fuel ids =
      [StreamItem.text ("[Ошибка: " ++ msg ++ "]"), StreamItem.terminal] := by
  cases fuel with
  | zero => exact absurd hf (by omega)
  | succ n => simp [generate_worker, hs]

/-- C5 witness: the capture theorem applied to a scorer whose first step
raises "boom". -/
theorem exception_captured_as_content_witness :
    generate_worker (fun _ => Except.error "boom") (fun _ => "t") 0 2 [] =
      [StreamItem.text ("[Ошибка: " ++ "boom" ++ "]"), StreamItem.terminal] :=
  exception_captured_as_content (fun _ => Except.error "boom") (fun _ => "t") 0 2 [] "boom"
    rfl (by omega)

/-- C6 counterexample: with `temperature = 0` the code does not perform argmax
selection.  On logits `[1, 2]` (argmax would deterministically pick index 1)
the division by zero produces `+inf` logits, every softmax entry becomes
`nan`, and `torch.multinomial` rejects the distribution — the step raises an
error instead of selecting any token. -/
theorem temperature_zero_counterexample :
    sampleStep (fun _ => 1) (fun _ => 0) 0 50 1 [1, 2] =
      Except.error "RuntimeError: probability tensor contains either inf, nan or element < 0" := by
  decide

/-- C6 amended: `temperature = 0` is not special-cased to argmax.  The logits
are divided by zero unconditionally, producing only non-finite values; the
filters preserve non-finiteness, the final softmax therefore yields all-`nan`
probabilities, and `torch.multinomial` rejects the distribution — so the step
always fails with a runtime error (captured by the worker as an error event)
and no token is selected for any scorer output, random draw, `top_k` or
`top_p`. -/
theorem temperature_zero_always_errors (exp : ℚ → ℚ) (pick : List FVal → ℕ)
    (top_k : ℕ) (top_p : ℚ) (logits : List ℚ) (h : logits ≠ []) :
    ∃ e, sampleStep exp pick 0 top_k top_p logits = Except.error e := by
  refine ⟨"RuntimeError: probability tensor contains either inf, nan or element < 0", ?_⟩
  simp only [sampleStep]
  set L0 : List FVal := logits.map (fun x => FVal.div (FVal.fin x) (FVal.fin 0)) with hd0
  set L1 : List FVal := if top_k ≠ 0 then apply_top_k L0 top_k else L0 with hd1
  set L2 : List FVal := if top_p ≠ 0 then apply_top_p exp L1 top_p else L1 with hd2
  have hf0 : ∀ x ∈ L0, FVal.isFin x = false := by
    intro x hx
    rw [hd0] at hx
    obtain ⟨q, _, rfl⟩ := List.mem_map.mp hx
    exact div_zero_nonfin q
  have hl0 : 0 < L0.length := by
    rw [hd0, List.length_map]
    exact List.length_pos.mpr h
  have hf1 : ∀ x ∈ L1, FVal.isFin x = false := by
    rw [hd1]
    split_ifs
    · exact topk_preserves_nonfin L0 top_k hf0
    · exact hf0
  have hl1 : 0 < L1.length := by
    rw [hd1]
    split_ifs
    · rw [apply_top_k_length]; exact hl0
    · exact hl0
  have hf2 : ∀ x ∈ L2, FVal.isFin x = false := by
    rw [hd2]
    split_ifs
    · exact topp_preserves_nonfin exp L1 top_p hf1
    · exact hf1
  have hl2 : 0 < L2.length := by
    rw [hd2]
    split_ifs
    · rw [apply_top_p_length]; exact hl1
    · exact hl1
  apply multinomialF_nan
  have hne : L2 ≠ [] := by
    intro hnil
    rw [hnil] at hl2
    simp at hl2
  have hall := softmax_nonfin_all_nan exp L2 hne hf2
  have hsne : softmaxF exp L2 ≠ [] := by
    intro hnil
    have hlen : (softmaxF exp L2).length = L2.length := by
      simp [softmaxF]
    rw [hnil] at hlen
    simp at hlen
    rw [← hlen] at hl2
    simp at hl2
  obtain ⟨y, hy⟩ := List.exists_mem_of_ne_nil (softmaxF exp L2) hsne
  have hynan := hall y hy
  rwa [hynan] at hy

/-- C6 witness: the always-errors theorem at `logits = [3]` with an
arbitrary exponential and random draw. -/
theorem temperature_zero_always_errors_witness :
    ∃ e, sampleStep (fun _ => 1) (fun _ => 0) 0 50 (95/100) [3] = Except.error e :=
  temperature_zero_always_errors (fun _ => 1) (fun _ => 0) 50 (95/100) [3] (by simp)

/-- C7 counterexample: the claim says top-k retains exactly
`min(top_k, vocab_size)` entries.  With tied logits `[1, 1]` and `top_k = 1`
the threshold (the 1st-largest logit) is 1 and no entry is strictly below it,
so nothing is masked and 2 entries are retained, not `min(1, 2) = 1`. -/
theorem top_k_tie_counterexample :
    apply_top_k [FVal.fin 1, FVal.fin 1] 1 = [FVal.fin 1, FVal.fin 1] ∧
    ([FVal.fin 1, FVal.fin 1].countP FVal.isFin ≠
      min 1 ([FVal.fin 1, FVal.fin 1] : List FVal).length) := by decide

/-- C7 amended: `_apply_top_k` masks to `-inf` exactly the entries strictly
below the `min(top_k, n)`-th largest logit; at least `min(top_k, n)` entries
are always retained, and exactly that many when the logits are pairwise
distinct (ties at the threshold retain extra entries). -/
theorem top_k_retained_count (l : List ℚ) (k : ℕ) (hl : l ≠ []) (hk : 0 < k) :
    min k l.length ≤ (apply_top_k (l.map FVal.fin) k).countP FVal.isFin ∧
    (l.Nodup → (apply_top_k (l.map FVal.fin) k).countP FVal.isFin = min k l.length) := by
  set L := l.map FVal.fin with hLdef
  have hLlen : L.length = l.length := by rw [hLdef]; exact List.length_map _ _
  have hLfin : ∀ x ∈ L, FVal.isFin x = true := by
    intro x hx
    rw [hLdef] at hx
    obtain ⟨q, _, rfl⟩ := List.mem_map.mp hx
    rfl
  have hperm : List.Perm (sortDescF L) L := List.perm_insertionSort rdescF L
  have hsorted : List.Sorted rdescF (sortDescF L) := List.sorted_insertionSort rdescF L
  have hslen : (sortDescF L).length = l.length := hperm.length_eq.trans hLlen
  set k2 := min k L.length with hk2def
  have heqmin : min k l.length = k2 := by rw [hk2def, hLlen]
  have hk2pos : 0 < k2 := by
    rw [hk2def, hLlen]
    have := List.length_pos.mpr hl
    omega
  have hk2le : k2 ≤ (sortDescF L).length := by
    rw [hslen]
    rw [hk2def, hLlen]
    omega
  have hidx : k2 - 1 < (sortDescF L).length := by omega
  set thr := (sortDescF L).getD (k2 - 1) FVal.nan with hthrdef
  have hthr_get : thr = (sortDescF L).get ⟨k2 - 1, hidx⟩ := by
    rw [hthrdef]
    exact List.getD_eq_get _ _ hidx
  have hthr_mem : thr ∈ L := by
    rw [hthr_get]
    exact hperm.mem_iff.mp (List.get_mem _ _ _)
  obtain ⟨t, hthr_eq⟩ : ∃ t : ℚ, thr = FVal.fin t := by
    have hfin := hLfin _ hthr_mem
    cases hcase : thr with
    | fin q => exact ⟨q, rfl⟩
    | pinf => rw [hcase] at hfin; exact absurd hfin (by decide)
    | ninf => rw [hcase] at hfin; exact absurd hfin (by decide)
    | nan => rw [hcase] at hfin; exact absurd hfin (by decide)
  have getfin : ∀ i (h : i < (sortDescF L).length),
      ∃ v : ℚ, (sortDescF L).get ⟨i, h⟩ = FVal.fin v := by
    intro i h
    have hmem : (sortDescF L).get ⟨i, h⟩ ∈ L := hperm.mem_iff.mp (List.get_mem _ _ _)
    have hfin := hLfin _ hmem
    cases hcase : (sortDescF L).get ⟨i, h⟩ with
    | fin q => exact ⟨q, rfl⟩
    | pinf => rw [hcase] at hfin; exact absurd hfin (by decide)
    | ninf => rw [hcase] at hfin; exact absurd hfin (by decide)
    | nan => rw [hcase] at hfin; exact absurd hfin (by decide)
  have happ : apply_top_k L k = L.map (fun x => if FVal.lt x thr then FVal.ninf else x) := rfl
  rw [happ, List.countP_map]
  have hcong : List.countP (FVal.isFin ∘ fun x => if FVal.lt x thr then FVal.ninf else x) L =
      List.countP (fun x => !FVal.lt x thr) L := by
    apply List.countP_congr
    intro x hx
    obtain ⟨q, hq⟩ : ∃ q : ℚ, x = FVal.fin q := by
      have hfin := hLfin _ hx
      cases hcase : x with
      | fin q => exact ⟨q, rfl⟩
      | pinf => rw [hcase] at hfin; exact absurd hfin (by decide)
      | ninf => rw [hcase] at hfin; exact absurd hfin (by decide)
      | nan => rw [hcase] at hfin; exact absurd hfin (by decide)
    subst hq
    simp only [Function.comp_apply]
    cases hlt : FVal.lt (FVal.fin q) thr
    · simp [hlt, FVal.isFin]
    · simp [hlt, FVal.isFin]
  rw [hcong, ← List.Perm.countP_eq _ hperm]
  have hin : ∀ i (h : i < (sortDescF L).length), i < k2 →
      (fun x => !FVal.lt x thr) ((sortDescF L).get ⟨i, h⟩) = true := by
    intro i h hik
    obtain ⟨v, hv⟩ := getfin i h
    have hle : FVal.leS thr ((sortDescF L).get ⟨i, h⟩) := by
      rcases eq_or_lt_of_le (show i ≤ k2 - 1 by omega) with heq | hlt2
      · subst heq
        rw [hthr_get]
        exact leS_refl _
      · rw [hthr_get]
        exact hsorted.rel_get_of_lt (show (⟨i, h⟩ : Fin _) < ⟨k2 - 1, hidx⟩ from hlt2)
    rw [hv, hthr_eq] at hle
    have hlev := (fin_leS_fin t v).mp hle
    rw [hv, hthr_eq]
    simp only [FVal.lt, Bool.not_eq_true']
    exact decide_eq_false (not_lt.mpr hlev)
  refine ⟨?_, ?_⟩
  · rw [heqmin]
    exact countP_ge_of_prefix _ _ k2 hk2le hin
  · intro hnd
    have hLnd : L.Nodup := by
      rw [hLdef]
      exact hnd.map (fun a b hab => FVal.fin.inj hab)
    have hsnd : (sortDescF L).Nodup := (hperm.nodup_iff).mpr hLnd
    have hout : ∀ i (h : i < (sortDescF L).length), k2 ≤ i →
        (fun x => !FVal.lt x thr) ((sortDescF L).get ⟨i, h⟩) = false := by
      intro i h hik
      obtain ⟨v, hv⟩ := getfin i h
      have hle : FVal.leS ((sortDescF L).get ⟨i, h⟩) thr := by
        rw [hthr_get]
        exact hsorted.rel_get_of_lt
          (show (⟨k2 - 1, hidx⟩ : Fin _) < ⟨i, h⟩ from by
            exact Fin.mk_lt_mk.mpr (by omega))
      have hne : (sortDescF L).get ⟨i, h⟩ ≠ thr := by
        rw [hthr_get]
        intro heq
        have h2 := congrArg Fin.val ((hsnd.get_inj_iff).mp heq)
        simp only at h2
        omega
      rw [hv, hthr_eq] at hle hne
      have hlev := (fin_leS_fin v t).mp hle
      have hvt : v < t := lt_of_le_of_ne hlev (fun hh => hne (by rw [hh]))
      rw [hv, hthr_eq]
      simp only [FVal.lt, Bool.not_eq_false']
      exact decide_eq_true hvt
    rw [heqmin]
    exact countP_eq_of_prefix _ _ k2 hk2le hin hout

/-- C7 witness: the retained-count theorem at logits `[1, 2]` with
`top_k = 1`. -/
theorem top_k_retained_count_witness :
    min 1 ([1, 2] : List ℚ).length ≤
      (apply_top_k (([1, 2] : List ℚ).map FVal.fin) 1).countP FVal.isFin ∧
    (([1, 2] : List ℚ).Nodup →
      (apply_top_k (([1, 2] : List ℚ).map FVal.fin) 1).countP FVal.isFin =
        min 1 ([1, 2] : List ℚ).length) :=
  top_k_retained_count [1, 2] 1 (by simp) (by omega)

/-- C9 counterexample: the claim says the packed buffer has exactly
`ceil(element_count / 2)` bytes for every positive `group_size`.  With
`group_size = 1` on the two-element weight `[1, 1]` each of the two groups is
odd-length, each is padded and packed separately (`from_linear` packs per
group and concatenates), so the buffer has 2 bytes, not `ceil(2/2) = 1`. -/
theorem packed_length_counterexample :
    from_linear [1, 1] 1 = Except.ok ⟨[7, 7], [1/7, 1/7], [0, 0]⟩ ∧
    ([7, 7] : List ℕ).length ≠ (([1, 1] : List ℚ).length + 1) / 2 :=
  ⟨from_linear_gs1, by decide⟩

/-- C10 counterexample: the claim says `from_linear` fails with
`InvalidConfiguration` when `group_size ≤ 0`.  No such validation or error
class exists anywhere in the code: `group_size = 0` raises `ZeroDivisionError`
from the Python floor division computing the group count. -/
theorem group_size_zero_division :
    from_linear [1] 0 = Except.error QuantError.zeroDivisionError ∧
    QuantError.zeroDivisionError ≠ QuantError.invalidConfiguration := by decide

/-- C9 amended: `from_linear` packs each group separately (padding every
odd-length group) and concatenates, giving `Σ ceil(len_g / 2)` bytes; for
every even positive `group_size` (in particular the default 128) this equals
`ceil(element_count / 2)`. -/
theorem packed_length_even_group_size (w : List ℚ) (gs : ℤ) (hw : w ≠ [])
    (hgs : 0 < gs) (h2 : gs % 2 = 0) :
    ∃ r, from_linear w gs = Except.ok r ∧ r.packed.length = (w.length + 1) / 2 := by
  refine ⟨_, from_linear_pos w gs hw hgs, ?_⟩
  simp only [List.length_flatten, List.map_map]
  rw [List.map_congr_left (fun (c : List ℚ) _ =>
    (by simp only [Function.comp_apply]; rw [pack_i4_length, quantizeGroup_length] :
      (List.length ∘ fun s => pack_i4 (quantizeGroup s)) c = (c.length + 1) / 2))]
  exact chunk_len_sum gs.toNat (by omega) (by omega) w.length w le_rfl

/-- C9 witness: the even-group-size length formula at the spec's §8 scenario
(`W = [1, -1, 2, -2]`, `group_size = 4`). -/
theorem packed_length_even_group_size_witness :
    ∃ r, from_linear [1, -1, 2, -2] 4 = Except.ok r ∧
      r.packed.length = (([1, -1, 2, -2] : List ℚ).length + 1) / 2 :=
  packed_length_even_group_size [1, -1, 2, -2] 4 (by simp) (by omega) (by decide)

/-- C10 amended: `from_linear` performs no `group_size` validation and the
code has no `InvalidConfiguration` error anywhere: every `group_size ≤ 0`
raises an untyped error — `ZeroDivisionError` from the floor division in
`Q4Linear.__init__` (line 96) for `group_size = 0`, and a torch `RuntimeError`
(negative tensor size, empty-tensor `max`, or empty `torch.cat`) for negative
`group_size`. -/
theorem nonpositive_group_size_error (w : List ℚ) (gs : ℤ) (h : gs ≤ 0) :
    ∃ e, from_linear w gs = Except.error e ∧ e ≠ QuantError.invalidConfiguration := by
  rcases eq_or_lt_of_le h with rfl | hlt
  · exact ⟨QuantError.zeroDivisionError, by rw [from_linear, if_pos rfl], by decide⟩
  · obtain ⟨k, rfl⟩ : ∃ k : ℕ, gs = Int.negSucc k := by
      cases gs with
      | ofNat j => exact absurd hlt (not_lt.mpr (Int.ofNat_nonneg j))
      | negSucc k => exact ⟨k, rfl⟩
    have hks := Int.negSucc_eq k
    rw [from_linear]
    rw [if_neg (show ¬ (Int.negSucc k = 0) by omega)]
    rcases lt_trichotomy
      (Int.fdiv ((w.length : ℤ) + Int.negSucc k - 1) (Int.negSucc k)) 0 with hneg | hzero | hpos
    · exact ⟨QuantError.runtimeError, by rw [if_pos hneg], by decide⟩
    · refine ⟨QuantError.runtimeError, ?_, by decide⟩
      rw [if_neg (by omega)]
      rw [show slicesOf w (Int.negSucc k) = [] from by rw [slicesOf, hzero]; simp]
      simp
    · have hm := le_of_fdiv_pos_neg ((w.length : ℤ) + Int.negSucc k - 1) k hpos
      have hnk : (w.length : ℤ) + Int.negSucc k ≤ 0 := by omega
      refine ⟨QuantError.runtimeError, ?_, by decide⟩
      rw [if_neg (by omega)]
      rw [if_pos (show (slicesOf w (Int.negSucc k)).any (fun x => x.isEmpty) = true from by
        rw [slicesOf]
        apply List.any_eq_true.mpr
        refine ⟨_, List.mem_map_of_mem _ (List.mem_range.mpr
          (show 0 < (Int.fdiv ((w.length : ℤ) + Int.negSucc k - 1)
            (Int.negSucc k)).toNat by omega)), ?_⟩
        rw [List.isEmpty_iff]
        rw [show ((0 : ℕ) : ℤ) * Int.negSucc k = 0 by simp]
        rw [zero_add]
        rw [show imin (Int.negSucc k) (w.length : ℤ) = Int.negSucc k from by
          simp only [imin]; rw [if_pos (by omega)]]
        exact pySlice_neg_stop w (Int.negSucc k) (by omega) hnk)]

/-- C10 witness: the no-validation theorem at `group_size = -1` on the weight
`[1, 2]`. -/
theorem nonpositive_group_size_error_witness :
    ∃ e, from_linear [1, 2] (-1) = Except.error e ∧
      e ≠ QuantError.invalidConfiguration :=
  nonpositive_group_size_error [1, 2] (-1) (by omega)

/-- C8: nucleus filtering.  For finite logits, a strictly positive abstract
exponential and `top_p` in `(0, 1]`, the removal mask of `_apply_top_p` flags
exactly the sorted positions at or beyond `nucleusPrefixLen` - the length of
the smallest descending-sorted prefix whose cumulative softmax probability
exceeds `top_p` (every position when no prefix does), stated in the spec's own
words - so the retained sorted prefix is that smallest prefix; and the output
always retains at least one finite entry (the top sorted entry is never
masked), even when its probability alone exceeds `top_p`. -/
theorem top_p_nucleus_prefix (exp : ℚ → ℚ) (hexp : ∀ x, 0 < exp x)
    (l : List ℚ) (hl : l ≠ []) (p : ℚ) (hp0 : 0 < p) (hp1 : p ≤ 1) :
    topPRemoveMask exp (l.map FVal.fin) p =
      (List.range l.length).map
        (fun i => decide (nucleusPrefixLen exp (l.map FVal.fin) p ≤ i)) ∧
    1 ≤ (apply_top_p exp (l.map FVal.fin) p).countP FVal.isFin := by
  have hlpos : 0 < l.length := List.length_pos.mpr hl
  have hperm : List.Perm (sortedPairsDesc (l.map FVal.fin)) (l.map FVal.fin).enum :=
    List.perm_insertionSort rdescP _
  have hplen : (sortedPairsDesc (l.map FVal.fin)).length = l.length := by
    rw [hperm.length_eq, List.enum_length, List.length_map]
  have hpermv : List.Perm ((sortedPairsDesc (l.map FVal.fin)).map (·.2)) (l.map FVal.fin) := by
    have h1 := hperm.map (fun x : ℕ × FVal => x.2)
    have h2 : ((l.map FVal.fin).enum.map (fun x : ℕ × FVal => x.2)) = l.map FVal.fin :=
      List.enum_map_snd (l.map FVal.fin)
    rwa [h2] at h1
  have hfin : ∀ x ∈ (sortedPairsDesc (l.map FVal.fin)).map (·.2), FVal.isFin x = true := by
    intro x hx
    have hx2 : x ∈ l.map FVal.fin := hpermv.mem_iff.mp hx
    obtain ⟨q, _, hq⟩ := List.mem_map.mp hx2
    rw [← hq]
    rfl
  obtain ⟨vs, hvs⟩ := exists_map_fin _ hfin
  have hvslen : vs.length = l.length := by
    have h1 : ((sortedPairsDesc (l.map FVal.fin)).map (·.2)).length = vs.length := by
      rw [hvs, List.length_map]
    have h2 : ((sortedPairsDesc (l.map FVal.fin)).map (·.2)).length = l.length := by
      rw [hpermv.length_eq, List.length_map]
    omega
  have hvsne : vs ≠ [] := by
    intro h0
    rw [h0] at hvslen
    simp at hvslen
    omega
  obtain ⟨ps, hps, hpslen, hppos⟩ := softmax_fin_pos exp hexp vs hvsne
  have hcum : cumsumF (softmaxF exp ((sortedPairsDesc (l.map FVal.fin)).map (·.2)))
      = ((ps.scanl (· + ·) 0).tail).map FVal.fin := by
    rw [hvs, hps, cumsumF_fin]
  have hcslen : ((ps.scanl (· + ·) 0).tail).length = l.length := by
    rw [List.length_tail, List.length_scanl]
    omega
  have hpw : List.Pairwise (· ≤ ·) ((ps.scanl (· + ·) 0).tail) :=
    List.chain'_iff_pairwise.mp
      ((chain_le_scanl ps (fun q hq => le_of_lt (hppos q hq)) 0).tail)
  have hmask1 : topPRemoveMask exp (l.map FVal.fin) p =
      (List.range l.length).map
        (fun i => decide (crossing p (((ps.scanl (· + ·) 0).tail).map FVal.fin) + 1 ≤ i)) := by
    have hunf : topPRemoveMask exp (l.map FVal.fin) p =
        shiftRightMask ((((ps.scanl (· + ·) 0).tail).map FVal.fin).map
          (fun c => FVal.lt (.fin p) c)) := by
      simp only [topPRemoveMask]
      rw [hcum]
    rw [hunf]
    apply List.ext_getElem
    · rw [shiftRightMask_length, List.length_map, List.length_map, hcslen,
        List.length_map, List.length_range]
    · intro i h1 h2
      have hi : i < l.length := by
        rw [List.length_map, List.length_range] at h2
        exact h2
      simp only [List.getElem_map, List.getElem_range]
      cases i with
      | zero =>
        rw [shiftRightMask_getElem_zero]
        symm
        exact decide_eq_false (by omega)
      | succ j =>
        have hj : j < ((((ps.scanl (· + ·) 0).tail).map FVal.fin).map
            (fun c => FVal.lt (.fin p) c)).length := by
          rw [List.length_map, List.length_map, hcslen]
          omega
        rw [shiftRightMask_getElem_succ _ j h1 hj]
        have hjc : j < ((ps.scanl (· + ·) 0).tail).length := by
          rw [hcslen]
          omega
        simp only [List.getElem_map]
        show decide (p < ((ps.scanl (· + ·) 0).tail)[j]) = _
        apply decide_eq_decide.mpr
        exact Iff.trans (crossing_spec p _ hpw j hjc) (by omega)
  refine ⟨?_, ?_⟩
  · rw [hmask1]
    have hnpl : nucleusPrefixLen exp (l.map FVal.fin) p
        = crossing p (((ps.scanl (· + ·) 0).tail).map FVal.fin) + 1 := by
      unfold nucleusPrefixLen
      rw [hcum]
    simp only [hnpl]
  · obtain ⟨pr0, prs, hpairs⟩ :
        ∃ a t, sortedPairsDesc (l.map FVal.fin) = a :: t := by
      cases hE : sortedPairsDesc (l.map FVal.fin) with
      | nil =>
        rw [hE] at hplen
        simp at hplen
        omega
      | cons a t => exact ⟨a, t, rfl⟩
    have hfsteq : ((l.map FVal.fin).enum.map (fun x : ℕ × FVal => x.1))
        = List.range l.length := by
      have h0 := List.enum_map_fst (l.map FVal.fin)
      rw [List.length_map] at h0
      exact h0
    have hfstperm :
        List.Perm ((sortedPairsDesc (l.map FVal.fin)).map (fun x : ℕ × FVal => x.1))
          (List.range l.length) := by
      have h1 := hperm.map (fun x : ℕ × FVal => x.1)
      rwa [hfsteq] at h1
    have hnodup : ((sortedPairsDesc (l.map FVal.fin)).map (fun x : ℕ × FVal => x.1)).Nodup :=
      (hfstperm.nodup_iff).mpr (List.nodup_range _)
    have hj0mem : pr0.1 ∈ List.range l.length := by
      apply hfstperm.mem_iff.mp
      rw [hpairs]
      exact List.mem_map.mpr ⟨pr0, List.mem_cons_self _ _, rfl⟩
    have hj0lt : pr0.1 < l.length := List.mem_range.mp hj0mem
    have hmlen : (topPRemoveMask exp (l.map FVal.fin) p).length = l.length := by
      rw [hmask1, List.length_map, List.length_range]
    have hnotmem : pr0.1 ∉
        (((sortedPairsDesc (l.map FVal.fin)).zip (topPRemoveMask exp (l.map FVal.fin) p)).filterMap
          (fun pb => if pb.2 then some pb.1.1 else none)) := by
      intro hmem
      obtain ⟨pb, hpbmem, hpbeq⟩ := List.mem_filterMap.mp hmem
      have hpb2 : pb.2 = true := by
        by_contra hfalse
        rw [if_neg hfalse] at hpbeq
        exact Option.noConfusion hpbeq
      have hpb1 : pb.1.1 = pr0.1 := by
        rw [if_pos hpb2] at hpbeq
        exact Option.some.inj hpbeq
      obtain ⟨i, hi, hget⟩ := List.mem_iff_getElem.mp hpbmem
      have hi1 : i < (sortedPairsDesc (l.map FVal.fin)).length := by
        rw [List.length_zip] at hi
        omega
      have hig : i < l.length := by
        rw [hplen] at hi1
        exact hi1
      rw [List.getElem_zip] at hget
      have hmaski : (topPRemoveMask exp (l.map FVal.fin) p)[i] = true := by
        have := congrArg Prod.snd hget
        simp only at this
        rw [this]
        exact hpb2
      have hmaskval : (topPRemoveMask exp (l.map FVal.fin) p)[i]
          = decide (crossing p (((ps.scanl (· + ·) 0).tail).map FVal.fin) + 1 ≤ i) := by
        simp only [hmask1, List.getElem_map, List.getElem_range]
      have hK1 : 1 ≤ i := by
        rw [hmaskval] at hmaski
        have := of_decide_eq_true hmaski
        omega
      have hpi : ((sortedPairsDesc (l.map FVal.fin))[i]).1 = pr0.1 := by
        have := congrArg Prod.fst hget
        simp only at this
        rw [this]
        exact hpb1
      have hmi : i < ((sortedPairsDesc (l.map FVal.fin)).map (fun x : ℕ × FVal => x.1)).length := by
        rw [List.length_map]
        exact hi1
      have hm0 : 0 < ((sortedPairsDesc (l.map FVal.fin)).map (fun x : ℕ × FVal => x.1)).length := by
        rw [List.length_map, hplen]
        exact hlpos
      have hgeteq :
          ((sortedPairsDesc (l.map FVal.fin)).map (fun x : ℕ × FVal => x.1)).get ⟨i, hmi⟩
            = ((sortedPairsDesc (l.map FVal.fin)).map (fun x : ℕ × FVal => x.1)).get ⟨0, hm0⟩ := by
        rw [List.get_eq_getElem, List.get_eq_getElem]
        simp only [List.getElem_map]
        rw [hpi]
        simp only [hpairs, List.getElem_cons_zero]
      have hfin2 : (⟨i, hmi⟩ : Fin _) = ⟨0, hm0⟩ := (List.Nodup.get_inj_iff hnodup).mp hgeteq
      have : i = 0 := congrArg Fin.val hfin2
      omega
    have happ : apply_top_p exp (l.map FVal.fin) p
        = (l.map FVal.fin).enum.map (fun ix =>
            if (((sortedPairsDesc (l.map FVal.fin)).zip
                  (topPRemoveMask exp (l.map FVal.fin) p)).filterMap
                (fun pb => if pb.2 then some pb.1.1 else none)).contains ix.1
            then .ninf else ix.2) := by
      simp only [apply_top_p]
    rw [happ]
    refine List.countP_pos_iff.mpr ⟨FVal.fin (l.get ⟨pr0.1, hj0lt⟩), ?_, rfl⟩
    apply List.mem_map.mpr
    refine ⟨(pr0.1, FVal.fin (l.get ⟨pr0.1, hj0lt⟩)), ?_, ?_⟩
    · apply List.mem_iff_getElem.mpr
      refine ⟨pr0.1, ?_, ?_⟩
      · rw [List.enum_length, List.length_map]
        exact hj0lt
      · rw [List.getElem_enum]
        simp only [List.getElem_map, List.get_eq_getElem]
    · have hcf : ((((sortedPairsDesc (l.map FVal.fin)).zip
            (topPRemoveMask exp (l.map FVal.fin) p)).filterMap
          (fun pb => if pb.2 then some pb.1.1 else none)).contains pr0.1) = false := by
        simpa using hnotmem
      show (if (((sortedPairsDesc (l.map FVal.fin)).zip
            (topPRemoveMask exp (l.map FVal.fin) p)).filterMap
          (fun pb => if pb.2 then some pb.1.1 else none)).contains pr0.1 = true
        then FVal.ninf else FVal.fin (l.get ⟨pr0.1, hj0lt⟩))
          = FVal.fin (l.get ⟨pr0.1, hj0lt⟩)
      rw [hcf]
      exact if_neg Bool.false_ne_true

/-- Witness for C8 at `exp = const 1`, logits `[1, 2]` and `top_p = 1/2`. -/
theorem top_p_nucleus_prefix_witness :
    (∀ x : ℚ, 0 < (fun _ : ℚ => (1 : ℚ)) x) ∧ ([(1 : ℚ), 2] ≠ []) ∧
    (0 < (1/2 : ℚ)) ∧ ((1/2 : ℚ) ≤ 1) ∧
    (topPRemoveMask (fun _ : ℚ => (1 : ℚ)) (([1, 2] : List ℚ).map FVal.fin) (1/2) =
      (List.range ([1, 2] : List ℚ).length).map
        (fun i => decide
          (nucleusPrefixLen (fun _ : ℚ => (1 : ℚ)) (([1, 2] : List ℚ).map FVal.fin) (1/2) ≤ i)) ∧
     1 ≤ (apply_top_p (fun _ : ℚ => (1 : ℚ))
        (([1, 2] : List ℚ).map FVal.fin) (1/2)).countP FVal.isFin) :=
  ⟨fun _ => one_pos, by simp, by norm_num, by norm_num,
   top_p_nucleus_prefix (fun _ => 1) (fun _ => one_pos) [1, 2] (by simp) (1/2)
     (by norm_num) (by norm_num)⟩

end TLS

